import Mathlib

/-!
Shallow embedding of the Hybrid Retrieval Engine of the kg-ai-starter
repository: the `supabase/schema.sql` knowledge-graph store and its SQL
helper functions (`get_connected_nodes`, `find_shortest_path`,
`search_nodes_semantic`, `search_chunks_semantic`), and the chat route
(`app/api/chat/route.ts`): validation, the mode-gated tool table, the
per-tool execute bodies, `createSafeExecute` and `generateEmbedding`.

Node and edge identities are UUIDs in the source; they are modelled as
naturals (only identity and order are used).  SQL `FLOAT` weights,
similarity scores and embedding coordinates are modelled as rationals.
The `created_at` / `updated_at` timestamp columns play no role in any
function modelled here and are omitted.  The pgvector cosine-distance
operator `<=>` is an external primitive of the database; it is passed in
as an explicit distance-function parameter `dist`.
-/

namespace KG

abbrev NodeId := Nat

/-- A row of `kg_nodes` (schema.sql): `id, label, type, properties,
embedding`.  `type` is nullable, `embedding vector(1536)` is nullable;
`properties JSONB` is modelled as a string association list. -/
structure NodeRow where
  id : NodeId
  label : String
  typ : Option String
  properties : List (String × String)
  embedding : Option (List ℚ)
deriving Repr, DecidableEq

/-- A row of `kg_edges` (schema.sql): `id, source_id, target_id,
relationship, properties, weight`, with constraints
`UNIQUE(source_id, target_id, relationship)` and both endpoints
`REFERENCES kg_nodes(id)`. -/
structure EdgeRow where
  id : Nat
  source_id : NodeId
  target_id : NodeId
  relationship : String
  properties : List (String × String)
  weight : ℚ
deriving Repr, DecidableEq

/-- A row of `document_chunks` (schema.sql): `id, document_id,
chunk_index, content, embedding, metadata`. -/
structure ChunkRow where
  id : Nat
  document_id : Nat
  chunk_index : Nat
  content : String
  embedding : Option (List ℚ)
  metadata : List (String × String)
deriving Repr, DecidableEq

/-!
## `get_connected_nodes(node_id, max_depth)` (schema.sql)

The function is a recursive CTE `node_graph`:
base case the start node at depth 0 with path `ARRAY[n.id]`; recursive
case follows each edge from either endpoint (`ng.node_id = e.source_id
OR ng.node_id = e.target_id`), joins the node at the other end, guards
`ng.depth < $2` and `NOT n.id = ANY(ng.path)`, and emits `SELECT
DISTINCT` rows with depth `ng.depth + 1` and path `ng.path || n.id`.
The final query is
`SELECT DISTINCT ON (node_id) * FROM node_graph ORDER BY node_id, depth`.

A Postgres recursive CTE evaluates level by level until a level is
empty; `node_graph` is the union of the levels.  The output columns
`label`, `type`, `properties` are projections of the `kg_nodes` row of
`node_id` and are omitted from the row model.
-/

/-- One output row of the `node_graph` CTE (the node columns other than
the id are projections of the `kg_nodes` row and are omitted). -/
structure PathRow where
  node_id : NodeId
  depth : Nat
  path : List NodeId
deriving Repr, DecidableEq

/-- Base case of the `node_graph` CTE: the start node, depth 0. -/
def cteBase (nodes : List NodeRow) (start : NodeId) : List PathRow :=
  (nodes.filter (fun n => n.id == start)).map (fun n => ⟨n.id, 0, [n.id]⟩)

/-- Recursive case of the `node_graph` CTE applied to one working row:
`JOIN kg_edges e ON (ng.node_id = e.source_id OR ng.node_id = e.target_id)
JOIN kg_nodes n ON ((e.source_id = ng.node_id AND e.target_id = n.id) OR
(e.target_id = ng.node_id AND e.source_id = n.id))
WHERE ng.depth < max_depth AND NOT n.id = ANY(ng.path)`. -/
def stepRows (nodes : List NodeRow) (edges : List EdgeRow) (max_depth : Nat)
    (ng : PathRow) : List PathRow :=
  if ng.depth < max_depth then
    edges.flatMap (fun e =>
      if e.source_id = ng.node_id ∨ e.target_id = ng.node_id then
        nodes.flatMap (fun n =>
          if ((e.source_id = ng.node_id ∧ e.target_id = n.id) ∨
              (e.target_id = ng.node_id ∧ e.source_id = n.id)) ∧
              n.id ∉ ng.path then
            [⟨n.id, ng.depth + 1, ng.path ++ [n.id]⟩]
          else [])
      else [])
  else []

/-- The successive levels of the `node_graph` CTE; the recursive term's
`SELECT DISTINCT` is the `dedup`. -/
def cteLevels (nodes : List NodeRow) (edges : List EdgeRow) (start : NodeId)
    (max_depth : Nat) : Nat → List PathRow
  | 0 => cteBase nodes start
  | k + 1 => ((cteLevels nodes edges start max_depth k).flatMap
      (stepRows nodes edges max_depth)).dedup

/-- The whole working table `node_graph`: the union of all levels.  Rows
of level `k` have depth `k` and levels beyond `max_depth` are empty
(`cteLevels_eq_nil_of_gt`), so levels `0 .. max_depth` are all of them. -/
def node_graph (nodes : List NodeRow) (edges : List EdgeRow) (start : NodeId)
    (max_depth : Nat) : List PathRow :=
  (List.range (max_depth + 1)).flatMap (cteLevels nodes edges start max_depth)

/-- The sort key of the final `ORDER BY node_id, depth`. -/
def rowLE (a b : PathRow) : Prop :=
  a.node_id < b.node_id ∨ (a.node_id = b.node_id ∧ a.depth ≤ b.depth)

instance : DecidableRel rowLE := fun a b =>
  inferInstanceAs (Decidable (_ ∨ _))

instance : IsTotal PathRow rowLE where
  total a b := by
    rcases Nat.lt_trichotomy a.node_id b.node_id with h | h | h
    · exact Or.inl (Or.inl h)
    · rcases Nat.le_total a.depth b.depth with hd | hd
      · exact Or.inl (Or.inr ⟨h, hd⟩)
      · exact Or.inr (Or.inr ⟨h.symm, hd⟩)
    · exact Or.inr (Or.inl h)

instance : IsTrans PathRow rowLE where
  trans a b c hab hbc := by
    rcases hab with h1 | ⟨e1, d1⟩
    · rcases hbc with h2 | ⟨e2, _⟩
      · exact Or.inl (h1.trans h2)
      · exact Or.inl (e2 ▸ h1)
    · rcases hbc with h2 | ⟨e2, d2⟩
      · exact Or.inl (e1 ▸ h2)
      · exact Or.inr ⟨e1.trans e2, d1.trans d2⟩

/-- `DISTINCT ON (node_id)`: keep the first row of each `node_id` group
in list order. -/
def distinctOnAux (seen : List NodeId) : List PathRow → List PathRow
  | [] => []
  | r :: rs =>
    if r.node_id ∈ seen then distinctOnAux seen rs
    else r :: distinctOnAux (r.node_id :: seen) rs

def distinctOnNodeId (rows : List PathRow) : List PathRow :=
  distinctOnAux [] rows

/-- `get_connected_nodes(node_id, max_depth)`:
`SELECT DISTINCT ON (node_id) * FROM node_graph ORDER BY node_id, depth`. -/
def get_connected_nodes (nodes : List NodeRow) (edges : List EdgeRow)
    (node_id : NodeId) (max_depth : Nat) : List PathRow :=
  distinctOnNodeId (List.insertionSort rowLE
    (node_graph nodes edges node_id max_depth))

/-!  Specification-side notions used to state what the traversal
returns: undirected adjacency, and simple undirected paths. -/

/-- Two node ids are adjacent when some edge joins them, in either
direction (the traversal treats edges as undirected). -/
def adjacent (edges : List EdgeRow) (u v : NodeId) : Prop :=
  ∃ e ∈ edges, (e.source_id = u ∧ e.target_id = v) ∨
    (e.target_id = u ∧ e.source_id = v)

instance (edges : List EdgeRow) (u v : NodeId) :
    Decidable (adjacent edges u v) :=
  inferInstanceAs (Decidable (∃ e ∈ edges, _ ∨ _))

/-- `p` is a simple undirected path that starts at `start`, repeats no
node, follows edges in either direction and visits only existing
nodes. -/
def simpleFrom (nodes : List NodeRow) (edges : List EdgeRow) (start : NodeId)
    (p : List NodeId) : Prop :=
  p.head? = some start ∧ p.Nodup ∧ p.Chain' (adjacent edges) ∧
    ∀ v ∈ p, ∃ n ∈ nodes, n.id = v

/-- `n` is reachable from `start` by a simple undirected path of exactly
`d` edges. -/
def reachableAt (nodes : List NodeRow) (edges : List EdgeRow)
    (start n : NodeId) (d : Nat) : Prop :=
  ∃ p, simpleFrom nodes edges start p ∧ p.getLast? = some n ∧
    p.length = d + 1

lemma mem_if_nil {α : Type*} {c : Prop} [Decidable c] {l : List α} {a : α} :
    a ∈ (if c then l else []) ↔ c ∧ a ∈ l := by
  split <;> simp_all

lemma mem_cteBase {nodes : List NodeRow} {start : NodeId} {r : PathRow} :
    r ∈ cteBase nodes start ↔
      (∃ n ∈ nodes, n.id = start) ∧ r = ⟨start, 0, [start]⟩ := by
  simp only [cteBase, List.mem_map, List.mem_filter, beq_iff_eq]
  constructor
  · rintro ⟨n, ⟨hn, hid⟩, rfl⟩
    exact ⟨⟨n, hn, hid⟩, by simp [hid]⟩
  · rintro ⟨⟨n, hn, hid⟩, rfl⟩
    exact ⟨n, ⟨hn, hid⟩, by simp [hid]⟩

lemma mem_stepRows {nodes : List NodeRow} {edges : List EdgeRow}
    {max_depth : Nat} {ng r : PathRow} :
    r ∈ stepRows nodes edges max_depth ng ↔
      ng.depth < max_depth ∧ ∃ e ∈ edges, ∃ n ∈ nodes,
        ((e.source_id = ng.node_id ∧ e.target_id = n.id) ∨
          (e.target_id = ng.node_id ∧ e.source_id = n.id)) ∧
        n.id ∉ ng.path ∧ r = ⟨n.id, ng.depth + 1, ng.path ++ [n.id]⟩ := by
  rw [stepRows, mem_if_nil]
  refine and_congr_right fun _ => ?_
  rw [List.mem_flatMap]
  constructor
  · rintro ⟨e, he, hr⟩
    rw [mem_if_nil] at hr
    obtain ⟨-, hr⟩ := hr
    rw [List.mem_flatMap] at hr
    obtain ⟨n, hn, hr⟩ := hr
    rw [mem_if_nil] at hr
    obtain ⟨⟨hc, hnp⟩, hr⟩ := hr
    rw [List.mem_singleton] at hr
    exact ⟨e, he, n, hn, hc, hnp, hr⟩
  · rintro ⟨e, he, n, hn, hc, hnp, rfl⟩
    refine ⟨e, he, ?_⟩
    rw [mem_if_nil]
    refine ⟨?_, ?_⟩
    · rcases hc with ⟨h1, _⟩ | ⟨h1, _⟩
      · exact Or.inl h1
      · exact Or.inr h1
    · rw [List.mem_flatMap]
      refine ⟨n, hn, ?_⟩
      rw [mem_if_nil]
      exact ⟨⟨hc, hnp⟩, List.mem_singleton.2 rfl⟩

/-- Every row of level `k` of the CTE has depth `k`. -/
lemma depth_of_mem_cteLevels {nodes : List NodeRow} {edges : List EdgeRow}
    {start : NodeId} {max_depth : Nat} :
    ∀ {k : Nat} {r : PathRow},
      r ∈ cteLevels nodes edges start max_depth k → r.depth = k := by
  intro k
  induction k with
  | zero =>
    intro r hr
    rw [cteLevels, mem_cteBase] at hr
    rw [hr.2]
  | succ k ih =>
    intro r hr
    rw [cteLevels, List.mem_dedup, List.mem_flatMap] at hr
    obtain ⟨r', hr', hstep⟩ := hr
    rw [mem_stepRows] at hstep
    obtain ⟨-, e, -, n, -, -, -, rfl⟩ := hstep
    simp [ih hr']

/-- Levels beyond `max_depth` are empty: the CTE terminates, and the
union over levels `0 .. max_depth` is the whole working table. -/
lemma cteLevels_eq_nil_of_gt {nodes : List NodeRow} {edges : List EdgeRow}
    {start : NodeId} {max_depth k : Nat} (hk : max_depth < k) :
    cteLevels nodes edges start max_depth k = [] := by
  cases k with
  | zero => omega
  | succ k =>
    rw [cteLevels]
    rw [List.eq_nil_iff_forall_not_mem]  -- reduce to no members
    intro r hr
    rw [List.mem_dedup, List.mem_flatMap] at hr
    obtain ⟨r', hr', hstep⟩ := hr
    rw [mem_stepRows] at hstep
    have hd := depth_of_mem_cteLevels hr'
    omega

/-- Characterisation of the CTE levels: the rows of level `k` are
exactly the simple undirected paths from the start node with `k` edges,
recorded with their endpoint and depth. -/
lemma mem_cteLevels {nodes : List NodeRow} {edges : List EdgeRow}
    {start : NodeId} {max_depth : Nat} :
    ∀ {k : Nat} {r : PathRow},
      r ∈ cteLevels nodes edges start max_depth k ↔
        simpleFrom nodes edges start r.path ∧
        r.path.getLast? = some r.node_id ∧ r.path.length = k + 1 ∧
        r.depth = k ∧ (k = 0 ∨ k ≤ max_depth) := by
  intro k
  induction k with
  | zero =>
    intro r
    rw [cteLevels, mem_cteBase]
    constructor
    · rintro ⟨⟨n, hn, hid⟩, rfl⟩
      refine ⟨⟨rfl, by simp, by simp, ?_⟩, by simp, by simp, rfl, Or.inl rfl⟩
      intro v hv
      rw [List.mem_singleton] at hv
      exact ⟨n, hn, hv ▸ hid⟩
    · rintro ⟨⟨hhead, -, -, hids⟩, hlast, hlen, hdep, -⟩
      obtain ⟨x, hx⟩ := List.length_eq_one.mp hlen
      rw [hx] at hhead hlast
      simp only [List.head?_cons, Option.some.injEq] at hhead
      simp only [List.getLast?_singleton, Option.some.injEq] at hlast
      obtain ⟨n, hn, hnid⟩ := hids x (by rw [hx]; exact List.mem_singleton.2 rfl)
      refine ⟨⟨n, hn, by rw [hnid, hhead]⟩, ?_⟩
      cases r with
      | mk ni d p => simp only at hx hdep hlast ⊢
                     rw [hx, hdep, ← hlast, hhead]
  | succ k ih =>
    intro r
    rw [cteLevels, List.mem_dedup, List.mem_flatMap]
    constructor
    · rintro ⟨r', hr', hstep⟩
      rw [mem_stepRows] at hstep
      obtain ⟨hdlt, e, he, n, hn, hc, hnp, rfl⟩ := hstep
      obtain ⟨⟨hhead, hnd, hch, hids⟩, hlast, hlen, hdep, -⟩ := ih.mp hr'
      have hpne : r'.path ≠ [] := by
        intro h; rw [h] at hlen; simp at hlen
      have hadj : adjacent edges r'.node_id n.id := by
        exact ⟨e, he, hc⟩
      refine ⟨⟨?_, ?_, ?_, ?_⟩, ?_, ?_, ?_, ?_⟩
      · -- head of the extended path
        obtain ⟨a, q, hq⟩ := List.exists_cons_of_ne_nil hpne
        simp only [hq, List.cons_append, List.head?_cons] at hhead ⊢
        exact hhead
      · -- nodup
        simp only [List.nodup_append, List.nodup_cons, List.nodup_nil,
          List.disjoint_singleton]
        exact ⟨hnd, by simp, by simpa using hnp⟩
      · -- chain
        rw [List.chain'_append]
        refine ⟨hch, by simp, ?_⟩
        intro x hx y hy
        rw [hlast] at hx
        simp only [List.head?_cons, Option.mem_def, Option.some.injEq] at hx hy
        rw [← hx, ← hy]
        exact hadj
      · -- all path members are node ids
        intro v hv
        rw [List.mem_append, List.mem_singleton] at hv
        rcases hv with hv | rfl
        · exact hids v hv
        · exact ⟨n, hn, rfl⟩
      · simp
      · simp [hlen]
      · simp [hdep]
      · right; omega
    · rintro ⟨⟨hhead, hnd, hch, hids⟩, hlast, hlen, hdep, hk⟩
      have hkle : k + 1 ≤ max_depth := by omega
      -- decompose the path into its initial part and its last node
      have hpne : r.path ≠ [] := by
        intro h; rw [h] at hlen; simp at hlen
      set q := r.path.dropLast with hqdef
      have hsplit : q ++ [r.path.getLast hpne] = r.path :=
        List.dropLast_append_getLast hpne
      have hqlen : q.length = k + 1 := by
        have := List.length_dropLast r.path
        rw [hlen] at this
        simpa [hqdef] using this
      have hqne : q ≠ [] := by
        intro h; rw [h] at hqlen; simp at hqlen
      have hvlast : r.path.getLast hpne = r.node_id := by
        have := List.getLast?_eq_getLast r.path hpne
        rw [hlast] at this
        exact (Option.some.injEq _ _ ▸ this.symm)
      -- properties of the initial part
      have hqhead : q.head? = some start := by
        obtain ⟨a, q', hq⟩ := List.exists_cons_of_ne_nil hqne
        rw [← hsplit, hq] at hhead
        simp only [List.cons_append, List.head?_cons] at hhead
        rw [hq]
        simpa using hhead
      have hqchain : q.Chain' (adjacent edges) ∧
          adjacent edges (q.getLast hqne) r.node_id := by
        rw [← hsplit, List.chain'_append] at hch
        obtain ⟨h1, -, h3⟩ := hch
        refine ⟨h1, ?_⟩
        have := h3 (q.getLast hqne) (by
          rw [List.getLast?_eq_getLast q hqne]; rfl) (r.path.getLast hpne)
          (by simp)
        rw [hvlast] at this
        exact this
      have hqnd : q.Nodup ∧ r.node_id ∉ q := by
        rw [← hsplit] at hnd
        rw [List.nodup_append] at hnd
        obtain ⟨h1, -, h3⟩ := hnd
        refine ⟨h1, ?_⟩
        intro hmem
        exact (by simpa using h3 hmem : ¬r.node_id = r.path.getLast hpne)
          hvlast.symm
      have hqids : ∀ v ∈ q, ∃ n ∈ nodes, n.id = v := by
        intro v hv
        refine hids v ?_
        rw [← hsplit, List.mem_append]
        exact Or.inl hv
      -- the previous working row
      have hr' : (⟨q.getLast hqne, k, q⟩ : PathRow) ∈
          cteLevels nodes edges start max_depth k := by
        rw [ih]
        refine ⟨⟨hqhead, hqnd.1, hqchain.1, hqids⟩, ?_, hqlen, rfl, ?_⟩
        · simp [List.getLast?_eq_getLast q hqne]
        · rcases Nat.eq_zero_or_pos k with h | h
          · exact Or.inl h
          · exact Or.inr (by omega)
      refine ⟨⟨q.getLast hqne, k, q⟩, hr', ?_⟩
      rw [mem_stepRows]
      refine ⟨show k < max_depth by omega, ?_⟩
      obtain ⟨e, he, hc⟩ := hqchain.2
      obtain ⟨n, hn, hnid⟩ := hids r.node_id (by
        rw [← hsplit, List.mem_append, hvlast]
        exact Or.inr (List.mem_singleton.2 rfl))
      refine ⟨e, he, n, hn, ?_, ?_, ?_⟩
      · simpa only [hnid] using hc
      · simpa only [hnid] using hqnd.2
      · cases r with
        | mk ni d p =>
          simp only at hsplit hvlast hdep ⊢
          rw [hnid, hdep, ← hsplit, hvlast]

/-- Membership in the whole working table `node_graph`. -/
lemma mem_node_graph {nodes : List NodeRow} {edges : List EdgeRow}
    {start : NodeId} {max_depth : Nat} {r : PathRow} :
    r ∈ node_graph nodes edges start max_depth ↔
      simpleFrom nodes edges start r.path ∧
      r.path.getLast? = some r.node_id ∧ r.path.length = r.depth + 1 ∧
      r.depth ≤ max_depth := by
  rw [node_graph, List.mem_flatMap]
  constructor
  · rintro ⟨k, hk, hr⟩
    rw [List.mem_range] at hk
    obtain ⟨h1, h2, h3, h4, h5⟩ := mem_cteLevels.mp hr
    exact ⟨h1, h2, by rw [h3, h4], by omega⟩
  · rintro ⟨h1, h2, h3, h4⟩
    refine ⟨r.depth, List.mem_range.mpr (by omega), ?_⟩
    rw [mem_cteLevels]
    exact ⟨h1, h2, h3, rfl, by omega⟩

lemma mem_of_mem_distinctOnAux {seen : List NodeId} {l : List PathRow}
    {r : PathRow} (h : r ∈ distinctOnAux seen l) :
    r ∈ l ∧ r.node_id ∉ seen := by
  induction l generalizing seen with
  | nil => simp [distinctOnAux] at h
  | cons x xs ih =>
    rw [distinctOnAux] at h
    split at h
    · obtain ⟨h1, h2⟩ := ih h
      exact ⟨List.mem_cons_of_mem _ h1, h2⟩
    · rcases List.mem_cons.mp h with rfl | h
      · exact ⟨List.mem_cons_self _ _, by assumption⟩
      · obtain ⟨h1, h2⟩ := ih h
        rw [List.mem_cons] at h2
        push_neg at h2
        exact ⟨List.mem_cons_of_mem _ h1, h2.2⟩

lemma distinctOnAux_covers {seen : List NodeId} {l : List PathRow}
    {r' : PathRow} (h : r' ∈ l) (hs : r'.node_id ∉ seen) :
    ∃ r ∈ distinctOnAux seen l, r.node_id = r'.node_id := by
  induction l generalizing seen with
  | nil => simp at h
  | cons x xs ih =>
    rw [distinctOnAux]
    rcases List.mem_cons.mp h with rfl | h
    · rw [if_neg hs]
      exact ⟨r', List.mem_cons_self _ _, rfl⟩
    · by_cases hx : x.node_id ∈ seen
      · rw [if_pos hx]
        exact ih h hs
      · rw [if_neg hx]
        by_cases heq : r'.node_id = x.node_id
        · exact ⟨x, List.mem_cons_self _ _, heq.symm⟩
        · obtain ⟨r, hr, hrid⟩ := ih h (by
            rw [List.mem_cons]
            push_neg
            exact ⟨heq, hs⟩)
          exact ⟨r, List.mem_cons_of_mem _ hr, hrid⟩

lemma nodup_distinctOnAux {seen : List NodeId} {l : List PathRow} :
    ((distinctOnAux seen l).map PathRow.node_id).Nodup := by
  induction l generalizing seen with
  | nil => simp [distinctOnAux]
  | cons x xs ih =>
    rw [distinctOnAux]
    split
    · exact ih
    · rw [List.map_cons, List.nodup_cons]
      refine ⟨?_, ih⟩
      intro hmem
      rw [List.mem_map] at hmem
      obtain ⟨r, hr, hrid⟩ := hmem
      have := (mem_of_mem_distinctOnAux hr).2
      rw [List.mem_cons] at this
      push_neg at this
      exact this.1 hrid

/-- In a list sorted by `(node_id, depth)`, the first row kept for each
`node_id` has the least depth in its group. -/
lemma depth_min_distinctOnAux {seen : List NodeId} {l : List PathRow}
    (hsort : l.Pairwise rowLE) {r r' : PathRow}
    (h : r ∈ distinctOnAux seen l) (h' : r' ∈ l)
    (hid : r'.node_id = r.node_id) : r.depth ≤ r'.depth := by
  induction l generalizing seen with
  | nil => simp at h'
  | cons x xs ih =>
    rw [distinctOnAux] at h
    rw [List.pairwise_cons] at hsort
    split at h
    · rcases List.mem_cons.mp h' with rfl | h'
      · exact absurd ((mem_of_mem_distinctOnAux h).2)
          (by simpa [hid] using (by assumption : r'.node_id ∈ seen))
      · exact ih hsort.2 h h'
    · rcases List.mem_cons.mp h with rfl | h
      · rcases List.mem_cons.mp h' with rfl | h'
        · exact le_refl _
        · rcases hsort.1 r' h' with hlt | ⟨-, hle⟩
          · rw [hid] at hlt
            exact absurd hlt (lt_irrefl _)
          · exact hle
      · have hrx : r.node_id ≠ x.node_id := by
          have := (mem_of_mem_distinctOnAux h).2
          rw [List.mem_cons] at this
          push_neg at this
          exact this.1
        rcases List.mem_cons.mp h' with rfl | h'
        · exact absurd hid.symm hrx
        · exact ih hsort.2 h h'

lemma distinctOnAux_sublist (seen : List NodeId) (l : List PathRow) :
    (distinctOnAux seen l).Sublist l := by
  induction l generalizing seen with
  | nil => simp [distinctOnAux]
  | cons x xs ih =>
    rw [distinctOnAux]
    split
    · exact (ih seen).trans (List.sublist_cons_self x xs)
    · exact List.Sublist.cons₂ x (ih _)

lemma pairwise_and {α : Type*} {R S : α → α → Prop} :
    ∀ {l : List α}, l.Pairwise R → l.Pairwise S →
      l.Pairwise (fun a b => R a b ∧ S a b) := by
  intro l hR hS
  induction l with
  | nil => exact List.Pairwise.nil
  | cons x xs ih =>
    rw [List.pairwise_cons] at hR hS ⊢
    exact ⟨fun b hb => ⟨hR.1 b hb, hS.1 b hb⟩, ih hR.2 hS.2⟩

/-- A duplicate-free list whose first and last elements agree is a
singleton. -/
lemma length_eq_one_of_head_getLast {p : List NodeId} {a : NodeId}
    (hnd : p.Nodup) (hh : p.head? = some a) (hl : p.getLast? = some a) :
    p.length = 1 := by
  cases p with
  | nil => simp at hh
  | cons x xs =>
    cases xs with
    | nil => simp
    | cons y ys =>
      exfalso
      simp only [List.head?_cons, Option.some.injEq] at hh
      rw [List.getLast?_cons_cons] at hl
      obtain ⟨hne, -⟩ := List.nodup_cons.mp hnd
      have : a ∈ y :: ys := by
        obtain ⟨hne2, heq⟩ :=
          List.mem_getLast?_eq_getLast (Option.mem_def.mpr hl)
        rw [heq]
        exact List.getLast_mem hne2
      exact hne (hh ▸ this)

lemma mem_node_graph_of_mem_connected {nodes : List NodeRow}
    {edges : List EdgeRow} {start : NodeId} {max_depth : Nat} {r : PathRow}
    (h : r ∈ get_connected_nodes nodes edges start max_depth) :
    r ∈ node_graph nodes edges start max_depth :=
  (List.perm_insertionSort rowLE _).mem_iff.mp (mem_of_mem_distinctOnAux h).1

lemma connected_covers {nodes : List NodeRow} {edges : List EdgeRow}
    {start : NodeId} {max_depth : Nat} {r' : PathRow}
    (h : r' ∈ node_graph nodes edges start max_depth) :
    ∃ r ∈ get_connected_nodes nodes edges start max_depth,
      r.node_id = r'.node_id :=
  distinctOnAux_covers ((List.perm_insertionSort rowLE _).mem_iff.mpr h)
    (List.not_mem_nil _)

lemma connected_depth_min {nodes : List NodeRow} {edges : List EdgeRow}
    {start : NodeId} {max_depth : Nat} {r r' : PathRow}
    (h : r ∈ get_connected_nodes nodes edges start max_depth)
    (h' : r' ∈ node_graph nodes edges start max_depth)
    (hid : r'.node_id = r.node_id) : r.depth ≤ r'.depth :=
  depth_min_distinctOnAux (List.sorted_insertionSort rowLE _) h
    ((List.perm_insertionSort rowLE _).mem_iff.mpr h') hid

lemma connected_ids_sorted (nodes : List NodeRow) (edges : List EdgeRow)
    (start : NodeId) (max_depth : Nat) :
    ((get_connected_nodes nodes edges start max_depth).map
      PathRow.node_id).Pairwise (· < ·) := by
  have hpw : (get_connected_nodes nodes edges start max_depth).Pairwise
      rowLE :=
    (List.sorted_insertionSort rowLE _).sublist (distinctOnAux_sublist _ _)
  have hnd : ((get_connected_nodes nodes edges start max_depth).map
      PathRow.node_id).Pairwise (· ≠ ·) := nodup_distinctOnAux
  rw [List.pairwise_map] at hnd ⊢
  refine (pairwise_and hpw hnd).imp ?_
  rintro a b ⟨hle, hne⟩
  rcases hle with h | ⟨h, -⟩
  · exact h
  · exact absurd h hne

/-- The node ids delivered by `get_connected_nodes` are exactly the ids
reachable from the start by a simple undirected path of at most
`max_depth` edges. -/
lemma connected_id_mem_iff {nodes : List NodeRow} {edges : List EdgeRow}
    {start n : NodeId} {max_depth : Nat} :
    (∃ r ∈ get_connected_nodes nodes edges start max_depth,
        r.node_id = n) ↔
      ∃ d, d ≤ max_depth ∧ reachableAt nodes edges start n d := by
  constructor
  · rintro ⟨r, hr, rfl⟩
    have hg := mem_node_graph_of_mem_connected hr
    obtain ⟨h1, h2, h3, h4⟩ := mem_node_graph.mp hg
    exact ⟨r.depth, h4, r.path, h1, h2, h3⟩
  · rintro ⟨d, hd, p, hp, hl, hlen⟩
    obtain ⟨r, hr, hid⟩ := connected_covers
      (mem_node_graph.mpr ⟨hp, hl, hlen, hd⟩ :
        (⟨n, d, p⟩ : PathRow) ∈ node_graph nodes edges start max_depth)
    exact ⟨r, hr, hid⟩

/-- A working-table row carrying the start node's id is the start row
itself: its path starts and ends at `start` without repeating a node,
so it is the one-element path at depth 0. -/
lemma depth_zero_of_node_id_start {nodes : List NodeRow}
    {edges : List EdgeRow} {start : NodeId} {max_depth : Nat} {r : PathRow}
    (h : r ∈ node_graph nodes edges start max_depth)
    (hid : r.node_id = start) : r.depth = 0 := by
  obtain ⟨⟨hh, hnd, -, -⟩, hl, hlen, -⟩ := mem_node_graph.mp h
  have := length_eq_one_of_head_getLast hnd hh (by rw [hl, hid])
  omega

/-- The scenario graph of the spec: nodes A = 1, B = 2, C = 3 and edges
A→B (relationship "x", weight 1), B→C ("y", weight 1),
A→C ("z", weight 5). -/
def scNodes : List NodeRow :=
  [⟨1, "A", some "concept", [], none⟩, ⟨2, "B", some "concept", [], none⟩,
   ⟨3, "C", some "concept", [], none⟩]

def scEdges : List EdgeRow :=
  [⟨1, 1, 2, "x", [], 1⟩, ⟨2, 2, 3, "y", [], 1⟩, ⟨3, 1, 3, "z", [], 5⟩]

/-- C1 (amended): for every graph and existing start node,
`get_connected_nodes` contains the start node and only at depth 0,
lists each reachable node id exactly once at the minimum depth at which
a simple undirected path reaches it, returns nothing deeper than
`max_depth`, and orders its rows by node id ascending.  The scenario is
amended: on the graph A→B, B→C, A→C, `connected(A, 1)` returns A at
depth 0, B at depth 1 and also C at depth 1, because the direct edge
A→C makes C adjacent to A. -/
theorem C1_connected_correct :
    (∀ (nodes : List NodeRow) (edges : List EdgeRow) (start : NodeId)
        (max_depth : Nat),
      ((∃ n ∈ nodes, n.id = start) →
        ∃ r ∈ get_connected_nodes nodes edges start max_depth,
          r.node_id = start ∧ r.depth = 0) ∧
      (∀ r ∈ get_connected_nodes nodes edges start max_depth,
        r.node_id = start → r.depth = 0) ∧
      ((get_connected_nodes nodes edges start max_depth).map
          PathRow.node_id).Pairwise (· < ·) ∧
      (∀ r ∈ get_connected_nodes nodes edges start max_depth,
        r.depth ≤ max_depth ∧
        reachableAt nodes edges start r.node_id r.depth ∧
        ∀ d, reachableAt nodes edges start r.node_id d → r.depth ≤ d) ∧
      (∀ n d, d ≤ max_depth → reachableAt nodes edges start n d →
        ∃ r ∈ get_connected_nodes nodes edges start max_depth,
          r.node_id = n)) ∧
    (get_connected_nodes scNodes scEdges 1 1).map
        (fun r => (r.node_id, r.depth)) = [(1, 0), (2, 1), (3, 1)] := by
  refine ⟨?_, by decide⟩
  intro nodes edges start max_depth
  refine ⟨?_, ?_, connected_ids_sorted _ _ _ _, ?_, ?_⟩
  · intro hstart
    have hbase : (⟨start, 0, [start]⟩ : PathRow) ∈
        node_graph nodes edges start max_depth := by
      rw [mem_node_graph]
      refine ⟨⟨rfl, by simp, by simp, ?_⟩, by simp, by simp, Nat.zero_le _⟩
      intro v hv
      rw [List.mem_singleton] at hv
      obtain ⟨n, hn, hid⟩ := hstart
      exact ⟨n, hn, hv ▸ hid⟩
    obtain ⟨r, hr, hid⟩ := connected_covers hbase
    refine ⟨r, hr, hid, ?_⟩
    have h0 : r.depth ≤ 0 := connected_depth_min hr hbase hid.symm
    omega
  · intro r hr hid
    exact depth_zero_of_node_id_start (mem_node_graph_of_mem_connected hr)
      hid
  · intro r hr
    obtain ⟨h1, h2, h3, h4⟩ :=
      mem_node_graph.mp (mem_node_graph_of_mem_connected hr)
    refine ⟨h4, ⟨r.path, h1, h2, h3⟩, ?_⟩
    rintro d ⟨p, hp, hl, hlen⟩
    by_cases hdm : d ≤ max_depth
    · exact connected_depth_min hr
        (mem_node_graph.mpr ⟨hp, hl, hlen, hdm⟩ :
          (⟨r.node_id, d, p⟩ : PathRow) ∈
            node_graph nodes edges start max_depth) rfl
    · omega
  · rintro n d hd ⟨p, hp, hl, hlen⟩
    exact connected_covers
      (mem_node_graph.mpr ⟨hp, hl, hlen, hd⟩ :
        (⟨n, d, p⟩ : PathRow) ∈ node_graph nodes edges start max_depth)

/-- Witness for `C1_connected_correct`: on the scenario graph the start
node A = 1 is returned at depth 0. -/
theorem C1_connected_correct_witness :
    ∃ r ∈ get_connected_nodes scNodes scEdges 1 1,
      r.node_id = 1 ∧ r.depth = 0 :=
  ((C1_connected_correct.1 scNodes scEdges 1 1).1)
    ⟨⟨1, "A", some "concept", [], none⟩, by decide, rfl⟩

/-- C1 counterexample to the claim as stated: on the graph A→B, B→C,
A→C, `connected(A, 1)` does not return only A at depth 0 and B at
depth 1 — C is also returned, at depth 1, through the direct A→C
edge. -/
theorem C1_scenario_counterexample :
    (⟨3, 1, [1, 3]⟩ : PathRow) ∈ get_connected_nodes scNodes scEdges 1 1 ∧
    (get_connected_nodes scNodes scEdges 1 1).map
        (fun r => (r.node_id, r.depth)) ≠ [(1, 0), (2, 1)] := by
  decide

lemma adjacent_append_rev {edges : List EdgeRow} {e e' : EdgeRow}
    (he : e ∈ edges) (h1 : e'.source_id = e.target_id)
    (h2 : e'.target_id = e.source_id) :
    ∀ u v, adjacent (edges ++ [e']) u v ↔ adjacent edges u v := by
  intro u v
  constructor
  · rintro ⟨f, hf, hc⟩
    rw [List.mem_append, List.mem_singleton] at hf
    rcases hf with hf | rfl
    · exact ⟨f, hf, hc⟩
    · refine ⟨e, he, ?_⟩
      rcases hc with ⟨ha, hb⟩ | ⟨ha, hb⟩
      · exact Or.inr ⟨h1 ▸ ha, h2 ▸ hb⟩
      · exact Or.inl ⟨h2 ▸ ha, h1 ▸ hb⟩
  · rintro ⟨f, hf, hc⟩
    exact ⟨f, List.mem_append_left _ hf, hc⟩

lemma reachableAt_append_rev {nodes : List NodeRow} {edges : List EdgeRow}
    {e e' : EdgeRow} (he : e ∈ edges) (h1 : e'.source_id = e.target_id)
    (h2 : e'.target_id = e.source_id) (start n : NodeId) (d : Nat) :
    reachableAt nodes (edges ++ [e']) start n d ↔
      reachableAt nodes edges start n d := by
  have hadj := adjacent_append_rev he h1 h2
  constructor <;> rintro ⟨p, ⟨hh, hnd, hch, hids⟩, hl, hlen⟩
  · exact ⟨p, ⟨hh, hnd, hch.imp (fun a b hab => (hadj a b).mp hab), hids⟩,
      hl, hlen⟩
  · exact ⟨p, ⟨hh, hnd, hch.imp (fun a b hab => (hadj a b).mpr hab), hids⟩,
      hl, hlen⟩

/-- C9: connected-node discovery treats edges as undirected, so adding
the reverse-direction duplicate of an existing edge leaves the set of
node ids returned by `get_connected_nodes` unchanged. -/
theorem C9_connected_undirected_stable :
    ∀ (nodes : List NodeRow) (edges : List EdgeRow) (start : NodeId)
        (max_depth : Nat) (e e' : EdgeRow),
      e ∈ edges → e'.source_id = e.target_id → e'.target_id = e.source_id →
      ∀ n, (∃ r ∈ get_connected_nodes nodes (edges ++ [e']) start max_depth,
              r.node_id = n) ↔
        ∃ r ∈ get_connected_nodes nodes edges start max_depth,
          r.node_id = n := by
  intro nodes edges start max_depth e e' he h1 h2 n
  rw [connected_id_mem_iff, connected_id_mem_iff]
  constructor <;> rintro ⟨d, hd, hreach⟩
  · exact ⟨d, hd, (reachableAt_append_rev he h1 h2 start n d).mp hreach⟩
  · exact ⟨d, hd, (reachableAt_append_rev he h1 h2 start n d).mpr hreach⟩

/-- Witness for `C9_connected_undirected_stable`: adding the reversed
duplicate of the edge A→B to the scenario graph does not change whether
B is discovered from A. -/
theorem C9_connected_undirected_stable_witness :
    (∃ r ∈ get_connected_nodes scNodes
        (scEdges ++ [⟨4, 2, 1, "x", [], 1⟩]) 1 1, r.node_id = 2) ↔
      ∃ r ∈ get_connected_nodes scNodes scEdges 1 1, r.node_id = 2 :=
  C9_connected_undirected_stable scNodes scEdges 1 1
    ⟨1, 1, 2, "x", [], 1⟩ ⟨4, 2, 1, "x", [], 1⟩ (by decide) rfl rfl 2

/-!
## `find_shortest_path(start_id, end_id, max_depth)` (schema.sql)

The function is a recursive CTE `paths`: base case the one-node path
`ARRAY[start_id]` with weight 0, guarded by
`WHERE EXISTS (SELECT 1 FROM kg_nodes WHERE id = start_id)`; recursive
case follows directed edges out of the current node
(`JOIN kg_edges e ON e.source_id = p.current_node`), guarded by
`NOT e.target_id = ANY(p.path)` and `array_length(p.path, 1) < max_depth`
(note that this bounds the number of NODES in a path by `max_depth`,
hence the number of edges by `max_depth - 1`).  The final query is
`SELECT path, total_weight FROM paths WHERE current_node = end_id
ORDER BY total_weight ASC LIMIT 1`.
-/

/-- One working row of the `paths` CTE. -/
structure SPRow where
  path : List NodeId
  total_weight : ℚ
  current_node : NodeId
deriving Repr, DecidableEq

/-- Base case of the `paths` CTE. -/
def spBase (nodes : List NodeRow) (start_id : NodeId) : List SPRow :=
  if nodes.any (fun n => n.id == start_id) then [⟨[start_id], 0, start_id⟩]
  else []

/-- Recursive case of the `paths` CTE applied to one working row. -/
def spStep (edges : List EdgeRow) (max_depth : Nat) (p : SPRow) :
    List SPRow :=
  edges.flatMap (fun e =>
    if e.source_id = p.current_node ∧ e.target_id ∉ p.path ∧
        p.path.length < max_depth then
      [⟨p.path ++ [e.target_id], p.total_weight + e.weight, e.target_id⟩]
    else [])

/-- The successive levels of the `paths` CTE. -/
def spLevels (nodes : List NodeRow) (edges : List EdgeRow)
    (start_id : NodeId) (max_depth : Nat) : Nat → List SPRow
  | 0 => spBase nodes start_id
  | k + 1 => (spLevels nodes edges start_id max_depth k).flatMap
      (spStep edges max_depth)

/-- The whole working table `paths`: the union of all levels.  Rows of
level `k` have paths of `k + 1` nodes and levels past `max_depth` are
empty (`spLevels_eq_nil_of_ge`), so levels `0 .. max_depth` are all of
them. -/
def spPaths (nodes : List NodeRow) (edges : List EdgeRow)
    (start_id : NodeId) (max_depth : Nat) : List SPRow :=
  (List.range (max_depth + 1)).flatMap (spLevels nodes edges start_id max_depth)

/-- The sort key of the final `ORDER BY total_weight ASC`. -/
def wLE (a b : SPRow) : Prop := a.total_weight ≤ b.total_weight

instance : DecidableRel wLE := fun a b =>
  inferInstanceAs (Decidable (_ ≤ _))

instance : IsTotal SPRow wLE where
  total a b := le_total a.total_weight b.total_weight

instance : IsTrans SPRow wLE where
  trans _ _ _ hab hbc := le_trans hab hbc

/-- `find_shortest_path(start_id, end_id, max_depth)`:
`SELECT path, total_weight FROM paths WHERE current_node = end_id
ORDER BY total_weight ASC LIMIT 1`. -/
def find_shortest_path (nodes : List NodeRow) (edges : List EdgeRow)
    (start_id end_id : NodeId) (max_depth : Nat) :
    Option (List NodeId × ℚ) :=
  ((List.insertionSort wLE
      ((spPaths nodes edges start_id max_depth).filter
        (fun p => p.current_node == end_id))).head?).map
    (fun p => (p.path, p.total_weight))

/-- Directed adjacency: some edge goes from `u` to `v`. -/
def dadj (edges : List EdgeRow) (u v : NodeId) : Prop :=
  ∃ e ∈ edges, e.source_id = u ∧ e.target_id = v

instance (edges : List EdgeRow) (u v : NodeId) :
    Decidable (dadj edges u v) :=
  inferInstanceAs (Decidable (∃ e ∈ edges, _ ∧ _))

/-- `p` is a simple directed path from `s` to `t`: it starts at `s`,
ends at `t`, repeats no node and each consecutive pair is joined by an
edge in the source→target direction.  A path of `n` nodes has `n - 1`
edges. -/
def SimpleDPath (edges : List EdgeRow) (s t : NodeId)
    (p : List NodeId) : Prop :=
  p.head? = some s ∧ p.getLast? = some t ∧ p.Nodup ∧ p.Chain' (dadj edges)

instance (edges : List EdgeRow) : DecidableRel (dadj edges) :=
  fun _ _ => inferInstance

/-- A structurally recursive decision procedure for `Chain'`, so that
concrete path checks evaluate by `decide`. -/
instance decidableChainPred {α : Type*} (r : α → α → Prop)
    [DecidableRel r] : ∀ l : List α, Decidable (List.Chain' r l)
  | [] => Decidable.isTrue List.chain'_nil
  | [a] => Decidable.isTrue (List.chain'_singleton a)
  | a :: b :: l =>
    have : Decidable (List.Chain' r (b :: l)) := decidableChainPred r (b :: l)
    decidable_of_iff (r a b ∧ List.Chain' r (b :: l)) List.chain'_cons.symm

instance (edges : List EdgeRow) (s t : NodeId) (p : List NodeId) :
    Decidable (SimpleDPath edges s t p) :=
  inferInstanceAs (Decidable (_ ∧ _ ∧ _ ∧ _))

lemma mem_spBase {nodes : List NodeRow} {start_id : NodeId} {r : SPRow} :
    r ∈ spBase nodes start_id ↔
      (∃ n ∈ nodes, n.id = start_id) ∧ r = ⟨[start_id], 0, start_id⟩ := by
  rw [spBase]
  split
  case isTrue h =>
    rw [List.any_eq_true] at h
    simp only [beq_iff_eq] at h
    simp [h]
  case isFalse h =>
    rw [List.any_eq_true] at h
    simp only [beq_iff_eq] at h
    simp [h]

lemma mem_spStep {edges : List EdgeRow} {max_depth : Nat} {p r : SPRow} :
    r ∈ spStep edges max_depth p ↔
      ∃ e ∈ edges, e.source_id = p.current_node ∧ e.target_id ∉ p.path ∧
        p.path.length < max_depth ∧
        r = ⟨p.path ++ [e.target_id], p.total_weight + e.weight,
          e.target_id⟩ := by
  rw [spStep, List.mem_flatMap]
  constructor
  · rintro ⟨e, he, hr⟩
    rw [mem_if_nil] at hr
    obtain ⟨⟨h1, h2, h3⟩, hr⟩ := hr
    rw [List.mem_singleton] at hr
    exact ⟨e, he, h1, h2, h3, hr⟩
  · rintro ⟨e, he, h1, h2, h3, rfl⟩
    refine ⟨e, he, ?_⟩
    rw [mem_if_nil]
    exact ⟨⟨h1, h2, h3⟩, List.mem_singleton.2 rfl⟩

/-- Forward characterisation of the `paths` CTE levels: every working
row of level `k` is a simple directed path of `k + 1` nodes from the
start node. -/
lemma spLevels_spec {nodes : List NodeRow} {edges : List EdgeRow}
    {start_id : NodeId} {max_depth : Nat} :
    ∀ {k : Nat} {r : SPRow},
      r ∈ spLevels nodes edges start_id max_depth k →
        SimpleDPath edges start_id r.current_node r.path ∧
        r.path.length = k + 1 ∧ (∃ n ∈ nodes, n.id = start_id) ∧
        (k = 0 ∨ k < max_depth) := by
  intro k
  induction k with
  | zero =>
    intro r hr
    rw [spLevels, mem_spBase] at hr
    obtain ⟨hs, rfl⟩ := hr
    exact ⟨⟨rfl, rfl, by simp, by simp⟩, rfl, hs, Or.inl rfl⟩
  | succ k ih =>
    intro r hr
    rw [spLevels, List.mem_flatMap] at hr
    obtain ⟨p, hp, hstep⟩ := hr
    rw [mem_spStep] at hstep
    obtain ⟨e, he, h1, h2, h3, rfl⟩ := hstep
    obtain ⟨⟨hh, hl, hnd, hch⟩, hlen, hs, -⟩ := ih hp
    have hpne : p.path ≠ [] := by
      intro h; rw [h] at hlen; simp at hlen
    refine ⟨⟨?_, ?_, ?_, ?_⟩, ?_, hs, ?_⟩
    · obtain ⟨a, q, hq⟩ := List.exists_cons_of_ne_nil hpne
      simp only [hq, List.cons_append, List.head?_cons] at hh ⊢
      exact hh
    · simp
    · simp only [List.nodup_append, List.nodup_cons, List.nodup_nil,
        List.disjoint_singleton]
      exact ⟨hnd, by simp, by simpa using h2⟩
    · rw [List.chain'_append]
      refine ⟨hch, by simp, ?_⟩
      intro x hx y hy
      rw [hl] at hx
      simp only [List.head?_cons, Option.mem_def, Option.some.injEq] at hx hy
      rw [← hx, ← hy]
      exact ⟨e, he, h1, rfl⟩
    · simp [hlen]
    · right
      omega

/-- Existence direction: every simple directed path from the start node
of `k + 1` allowed nodes appears as a working row of level `k` (with the
accumulated weight of some realising edge sequence). -/
lemma spLevels_of_simpleDPath {nodes : List NodeRow} {edges : List EdgeRow}
    {start_id : NodeId} {max_depth : Nat} :
    ∀ (k : Nat) (p : List NodeId) (t : NodeId), p.length = k + 1 →
      SimpleDPath edges start_id t p → (∃ n ∈ nodes, n.id = start_id) →
      (k = 0 ∨ k < max_depth) →
      ∃ w, (⟨p, w, t⟩ : SPRow) ∈
        spLevels nodes edges start_id max_depth k := by
  intro k
  induction k with
  | zero =>
    rintro p t hlen ⟨hh, hl, -, -⟩ hs -
    obtain ⟨x, rfl⟩ := List.length_eq_one.mp hlen
    simp only [List.head?_cons, Option.some.injEq] at hh
    simp only [List.getLast?_singleton, Option.some.injEq] at hl
    refine ⟨0, ?_⟩
    rw [spLevels, mem_spBase]
    exact ⟨hs, by rw [← hl, hh]⟩
  | succ k ih =>
    rintro p t hlen ⟨hh, hl, hnd, hch⟩ hs hk
    have hkd : k + 1 < max_depth := by omega
    have hpne : p ≠ [] := by
      intro h; rw [h] at hlen; simp at hlen
    set q := p.dropLast with hqdef
    have hsplit : q ++ [p.getLast hpne] = p := List.dropLast_append_getLast hpne
    have hqlen : q.length = k + 1 := by
      have := List.length_dropLast p
      rw [hlen] at this
      simpa [hqdef] using this
    have hqne : q ≠ [] := by
      intro h; rw [h] at hqlen; simp at hqlen
    have hvlast : p.getLast hpne = t := by
      have := List.getLast?_eq_getLast p hpne
      rw [hl] at this
      exact (Option.some.injEq _ _ ▸ this.symm)
    have hqhead : q.head? = some start_id := by
      obtain ⟨a, q', hq⟩ := List.exists_cons_of_ne_nil hqne
      rw [← hsplit, hq] at hh
      simp only [List.cons_append, List.head?_cons] at hh
      rw [hq]
      simpa using hh
    have hqchain : q.Chain' (dadj edges) ∧
        dadj edges (q.getLast hqne) t := by
      rw [← hsplit, List.chain'_append] at hch
      obtain ⟨h1, -, h3⟩ := hch
      refine ⟨h1, ?_⟩
      have := h3 (q.getLast hqne)
        (by rw [List.getLast?_eq_getLast q hqne]; rfl)
        (p.getLast hpne) (by simp)
      rw [hvlast] at this
      exact this
    have hqnd : q.Nodup ∧ t ∉ q := by
      rw [← hsplit, List.nodup_append] at hnd
      obtain ⟨h1, -, h3⟩ := hnd
      refine ⟨h1, ?_⟩
      intro hmem
      exact (by simpa using h3 hmem : ¬t = p.getLast hpne) hvlast.symm
    obtain ⟨w, hw⟩ := ih q (q.getLast hqne) hqlen
      ⟨hqhead, by rw [List.getLast?_eq_getLast q hqne], hqnd.1, hqchain.1⟩
      hs (by omega)
    obtain ⟨e, he, hesrc, hetgt⟩ := hqchain.2
    refine ⟨w + e.weight, ?_⟩
    rw [spLevels, List.mem_flatMap]
    refine ⟨⟨q, w, q.getLast hqne⟩, hw, ?_⟩
    rw [mem_spStep]
    refine ⟨e, he, hesrc, ?_, ?_, ?_⟩
    · simpa only [hetgt] using hqnd.2
    · show q.length < max_depth
      omega
    · simp only [hetgt]
      rw [← hsplit, hvlast]

/-- Rows of the working table are simple directed paths of at most
`max_depth` nodes (but the one-node start path is present even when
`max_depth = 0`). -/
lemma mem_spPaths {nodes : List NodeRow} {edges : List EdgeRow}
    {start_id : NodeId} {max_depth : Nat} {r : SPRow}
    (h : r ∈ spPaths nodes edges start_id max_depth) :
    SimpleDPath edges start_id r.current_node r.path ∧
    (∃ n ∈ nodes, n.id = start_id) ∧
    (r.path.length = 1 ∨ r.path.length ≤ max_depth) := by
  rw [spPaths, List.mem_flatMap] at h
  obtain ⟨k, -, hr⟩ := h
  obtain ⟨h1, h2, h3, h4⟩ := spLevels_spec hr
  exact ⟨h1, h3, by omega⟩

lemma spPaths_of_simpleDPath {nodes : List NodeRow} {edges : List EdgeRow}
    {start_id t : NodeId} {max_depth : Nat} {p : List NodeId}
    (hp : SimpleDPath edges start_id t p)
    (hs : ∃ n ∈ nodes, n.id = start_id)
    (hlen : p.length = 1 ∨ p.length ≤ max_depth) :
    ∃ w, (⟨p, w, t⟩ : SPRow) ∈ spPaths nodes edges start_id max_depth := by
  have hpos : 0 < p.length := by
    rcases hp with ⟨hh, -, -, -⟩
    cases p with
    | nil => simp at hh
    | cons a q => simp
  have hk : p.length - 1 = 0 ∨ p.length - 1 < max_depth := by
    rcases hlen with h | h
    · left
      omega
    · right
      omega
  obtain ⟨w, hw⟩ := spLevels_of_simpleDPath (p.length - 1) p t (by omega)
    hp hs hk
  refine ⟨w, ?_⟩
  rw [spPaths, List.mem_flatMap]
  exact ⟨p.length - 1, List.mem_range.mpr (by omega), hw⟩

instance (edges : List EdgeRow) : DecidableRel (adjacent edges) :=
  fun _ _ => inferInstance

/-- The head of the weight-sorted candidate list is a discovered row of
minimum total weight. -/
lemma head_sorted_min {l : List SPRow} {r₀ : SPRow}
    (h : (List.insertionSort wLE l).head? = some r₀) :
    r₀ ∈ l ∧ ∀ x ∈ l, r₀.total_weight ≤ x.total_weight := by
  have hperm := List.perm_insertionSort wLE l
  have hsort := List.sorted_insertionSort wLE l
  cases hsl : List.insertionSort wLE l with
  | nil => rw [hsl] at h; simp at h
  | cons a rest =>
    rw [hsl] at h hperm hsort
    simp only [List.head?_cons, Option.some.injEq] at h
    subst h
    rw [List.sorted_cons] at hsort
    constructor
    · exact hperm.mem_iff.mp (List.mem_cons_self _ _)
    · intro x hx
      rcases List.mem_cons.mp (hperm.mem_iff.mpr hx) with rfl | hx'
      · exact le_refl _
      · exact hsort.1 x hx'

/-- C2: whenever some working row reaches the end node,
`find_shortest_path` returns a discovered path whose total accumulated
weight is less than or equal to the total weight of every other
discovered path reaching the end node; on the scenario graph it returns
the path [A, B, C] with total weight 2, not [A, C] with weight 5. -/
theorem C2_shortest_path_minimal :
    (∀ (nodes : List NodeRow) (edges : List EdgeRow) (s t : NodeId)
        (max_depth : Nat),
      (∃ r ∈ spPaths nodes edges s max_depth, r.current_node = t) →
      ∃ pw, find_shortest_path nodes edges s t max_depth = some pw ∧
        (∃ r ∈ spPaths nodes edges s max_depth, r.current_node = t ∧
          r.path = pw.1 ∧ r.total_weight = pw.2) ∧
        ∀ r ∈ spPaths nodes edges s max_depth, r.current_node = t →
          pw.2 ≤ r.total_weight) ∧
    find_shortest_path scNodes scEdges 1 3 3 = some ([1, 2, 3], 2) := by
  refine ⟨?_, by norm_num [find_shortest_path, spPaths, spLevels, spBase,
    spStep, scNodes, scEdges, wLE, List.insertionSort, List.orderedInsert,
    List.range_succ]⟩
  rintro nodes edges s t max_depth ⟨r, hr, hrt⟩
  set l := (spPaths nodes edges s max_depth).filter
    (fun p => p.current_node == t) with hl
  have hrl : r ∈ l := List.mem_filter.mpr ⟨hr, by simpa using hrt⟩
  obtain ⟨r₀, h₀⟩ : ∃ r₀, (List.insertionSort wLE l).head? = some r₀ := by
    cases hsl : List.insertionSort wLE l with
    | nil =>
      exfalso
      have hlen := (List.perm_insertionSort wLE l).length_eq
      rw [hsl, List.length_nil] at hlen
      rw [List.length_eq_zero.mp hlen.symm] at hrl
      simp at hrl
    | cons a rest => exact ⟨a, rfl⟩
  obtain ⟨hmem, hmin⟩ := head_sorted_min h₀
  refine ⟨(r₀.path, r₀.total_weight), ?_, ?_, ?_⟩
  · rw [find_shortest_path, ← hl, h₀]
    rfl
  · obtain ⟨hsp, hct⟩ := List.mem_filter.mp hmem
    exact ⟨r₀, hsp, by simpa using hct, rfl, rfl⟩
  · intro x hx hxt
    exact hmin x (List.mem_filter.mpr ⟨hx, by simpa using hxt⟩)

/-- Witness for `C2_shortest_path_minimal`: on the scenario graph the
row for the path [A, C] reaches C, so the function returns a discovered
minimum-weight path to C. -/
theorem C2_shortest_path_minimal_witness :
    ∃ pw, find_shortest_path scNodes scEdges 1 3 3 = some pw ∧
      (∃ r ∈ spPaths scNodes scEdges 1 3, r.current_node = 3 ∧
        r.path = pw.1 ∧ r.total_weight = pw.2) ∧
      ∀ r ∈ spPaths scNodes scEdges 1 3, r.current_node = 3 →
        pw.2 ≤ r.total_weight :=
  C2_shortest_path_minimal.1 scNodes scEdges 1 3 3
    ⟨⟨[1, 3], 5, 3⟩, by norm_num [spPaths, spLevels, spBase, spStep,
      scNodes, scEdges, List.range_succ], rfl⟩

/-- The chain graph A→B→C used to exhibit the depth-bound
off-by-one. -/
def chainEdges : List EdgeRow :=
  [⟨1, 1, 2, "x", [], 1⟩, ⟨2, 2, 3, "y", [], 1⟩]

/-- C3 counterexample to the claim as stated: on the chain A→B→C the
simple directed path [A, B, C] has exactly 2 = maxDepth edges, yet
`find_shortest_path(A, C, 2)` returns no row, because the guard
`array_length(p.path, 1) < max_depth` bounds the number of path NODES
by `max_depth`, so only paths of at most maxDepth − 1 edges are
explored. -/
theorem C3_depth_counterexample :
    find_shortest_path scNodes chainEdges 1 3 2 = none ∧
    SimpleDPath chainEdges 1 3 [1, 2, 3] ∧
    ([1, 2, 3] : List NodeId).length - 1 ≤ 2 ∧
    (∃ n ∈ scNodes, n.id = 1) := by
  refine ⟨?_, by decide, by decide, by decide⟩
  norm_num [find_shortest_path, spPaths, spLevels, spBase, spStep,
    scNodes, chainEdges, wLE, List.insertionSort, List.orderedInsert,
    List.range_succ]

/-- C3 (amended): the search explores exactly the simple directed paths
of at most `max_depth` nodes, that is at most `max_depth - 1` edges;
for `max_depth ≥ 1` it returns no result precisely when the start node
does not exist or no simple directed path of at most `max_depth` nodes
from start to end exists. -/
theorem C3_notfound_iff :
    ∀ (nodes : List NodeRow) (edges : List EdgeRow) (s t : NodeId)
        (max_depth : Nat), 1 ≤ max_depth →
      (find_shortest_path nodes edges s t max_depth = none ↔
        ¬((∃ n ∈ nodes, n.id = s) ∧
          ∃ p, SimpleDPath edges s t p ∧ p.length ≤ max_depth)) := by
  intro nodes edges s t max_depth hmd
  set l := (spPaths nodes edges s max_depth).filter
    (fun p => p.current_node == t) with hl
  have hfind : find_shortest_path nodes edges s t max_depth = none ↔
      l = [] := by
    rw [find_shortest_path, ← hl, Option.map_eq_none']
    constructor
    · intro h
      have hlen := (List.perm_insertionSort wLE l).length_eq
      cases hsl : List.insertionSort wLE l with
      | nil =>
        rw [hsl, List.length_nil] at hlen
        exact List.length_eq_zero.mp hlen.symm
      | cons a rest =>
        rw [hsl] at h
        simp at h
    · intro h
      rw [h]
      rfl
  rw [hfind, List.eq_nil_iff_forall_not_mem]
  constructor
  · intro hno
    rintro ⟨hs, p, hp, hplen⟩
    obtain ⟨w, hw⟩ := spPaths_of_simpleDPath hp hs (Or.inr hplen)
    exact hno ⟨p, w, t⟩ (List.mem_filter.mpr ⟨hw, by simp⟩)
  · intro hno r hr
    obtain ⟨hsp, hct⟩ := List.mem_filter.mp hr
    obtain ⟨h1, h2, h3⟩ := mem_spPaths hsp
    refine hno ⟨h2, r.path, ?_, ?_⟩
    · have hct' : r.current_node = t := by simpa using hct
      rw [← hct']
      exact h1
    · rcases h3 with h | h
      · omega
      · exact h

/-- Witness for `C3_notfound_iff`: on the chain A→B→C with
`max_depth = 2` the function returns no row, so no simple directed path
of at most 2 nodes from A to C exists. -/
theorem C3_notfound_iff_witness :
    ¬((∃ n ∈ scNodes, n.id = 1) ∧
      ∃ p, SimpleDPath chainEdges 1 3 p ∧ p.length ≤ 2) :=
  (C3_notfound_iff scNodes chainEdges 1 3 2 (by omega)).mp
    (by norm_num [find_shortest_path, spPaths, spLevels, spBase, spStep,
      scNodes, chainEdges, wLE, List.insertionSort, List.orderedInsert,
      List.range_succ])

/-!
## `search_nodes_semantic` / `search_chunks_semantic` (schema.sql)

Both functions have the same shape:
`SELECT ..., 1 - (embedding <=> query_embedding) AS similarity
FROM <table> WHERE embedding IS NOT NULL
AND 1 - (embedding <=> query_embedding) > match_threshold
ORDER BY embedding <=> query_embedding LIMIT match_count`.
The pgvector cosine-distance operator `<=>` is an external database
primitive; it enters the model as the parameter `dist` (left argument
the stored embedding, right argument the query embedding).
-/

/-- The sort key of `ORDER BY embedding <=> query_embedding`: ascending
stored-to-query distance. -/
def simLE {α : Type*} (dist : List ℚ → List ℚ → ℚ) (q : List ℚ)
    (a b : α × List ℚ) : Prop :=
  dist a.2 q ≤ dist b.2 q

instance {α : Type*} (dist : List ℚ → List ℚ → ℚ) (q : List ℚ) :
    DecidableRel (@simLE α dist q) :=
  fun _ _ => inferInstanceAs (Decidable (_ ≤ _))

instance {α : Type*} (dist : List ℚ → List ℚ → ℚ) (q : List ℚ) :
    IsTotal (α × List ℚ) (simLE dist q) where
  total a b := le_total (dist a.2 q) (dist b.2 q)

instance {α : Type*} (dist : List ℚ → List ℚ → ℚ) (q : List ℚ) :
    IsTrans (α × List ℚ) (simLE dist q) where
  trans _ _ _ hab hbc := le_trans hab hbc

/-- Shared body of the two semantic-search SQL functions, applied to
the rows paired with their non-null embeddings: filter similarity
strictly above the threshold, order by distance ascending, truncate to
`match_count`, and report each row with its similarity. -/
def semanticSearch {α : Type*} (dist : List ℚ → List ℚ → ℚ)
    (query_embedding : List ℚ) (match_threshold : ℚ) (match_count : Nat)
    (cands : List (α × List ℚ)) : List (α × ℚ) :=
  ((List.insertionSort (simLE dist query_embedding)
      (cands.filter
        (fun c => match_threshold < 1 - dist c.2 query_embedding))).take
    match_count).map
    (fun c => (c.1, 1 - dist c.2 query_embedding))

/-- `search_nodes_semantic(query_embedding, match_threshold,
match_count)`: candidates are the `kg_nodes` rows with a non-null
embedding (`WHERE embedding IS NOT NULL`); the selected columns other
than the similarity are projections of the row. -/
def search_nodes_semantic (dist : List ℚ → List ℚ → ℚ)
    (nodes : List NodeRow) (query_embedding : List ℚ)
    (match_threshold : ℚ) (match_count : Nat) : List (NodeRow × ℚ) :=
  semanticSearch dist query_embedding match_threshold match_count
    (nodes.filterMap (fun n => n.embedding.map (fun emb => (n, emb))))

/-- `search_chunks_semantic(query_embedding, match_threshold,
match_count)`: same shape over `document_chunks`. -/
def search_chunks_semantic (dist : List ℚ → List ℚ → ℚ)
    (chunks : List ChunkRow) (query_embedding : List ℚ)
    (match_threshold : ℚ) (match_count : Nat) : List (ChunkRow × ℚ) :=
  semanticSearch dist query_embedding match_threshold match_count
    (chunks.filterMap (fun c => c.embedding.map (fun emb => (c, emb))))

/-- Core properties of the shared search body: every result arises from
a candidate, its reported similarity is `1 - dist` and is strictly
above the threshold, the reported similarities are weakly descending,
and at most `match_count` rows are returned. -/
lemma semanticSearch_spec {α : Type*} (dist : List ℚ → List ℚ → ℚ)
    (q : List ℚ) (thr : ℚ) (cnt : Nat) (cands : List (α × List ℚ)) :
    (∀ x ∈ semanticSearch dist q thr cnt cands,
      thr < x.2 ∧ ∃ c ∈ cands, c.1 = x.1 ∧ x.2 = 1 - dist c.2 q) ∧
    ((semanticSearch dist q thr cnt cands).map Prod.snd).Pairwise
      (fun a b => b ≤ a) ∧
    (semanticSearch dist q thr cnt cands).length ≤ cnt := by
  refine ⟨?_, ?_, ?_⟩
  · intro x hx
    rw [semanticSearch, List.mem_map] at hx
    obtain ⟨c, hc, rfl⟩ := hx
    have hc' : c ∈ cands.filter
        (fun c => thr < 1 - dist c.2 q) :=
      (List.perm_insertionSort (simLE dist q) _).mem_iff.mp
        (List.mem_of_mem_take hc)
    obtain ⟨hmem, hthr⟩ := List.mem_filter.mp hc'
    refine ⟨by simpa using hthr, c, hmem, rfl, rfl⟩
  · rw [semanticSearch, List.pairwise_map, List.pairwise_map]
    have hsorted : (List.insertionSort (simLE dist q)
        (cands.filter (fun c => thr < 1 - dist c.2 q))).Pairwise
        (simLE dist q) :=
      List.sorted_insertionSort (simLE dist q) _
    refine ((hsorted.sublist (List.take_sublist _ _)).imp ?_)
    intro a b hab
    exact sub_le_sub_left hab 1
  · rw [semanticSearch, List.length_map]
    exact List.length_take_le _ _

/-- The node rows delivered by `search_nodes_semantic` all carry a
non-null embedding and are reported with its similarity to the
query. -/
lemma search_nodes_semantic_sound (dist : List ℚ → List ℚ → ℚ)
    (nodes : List NodeRow) (q : List ℚ) (thr : ℚ) (cnt : Nat) :
    ∀ x ∈ search_nodes_semantic dist nodes q thr cnt,
      ∃ e, x.1.embedding = some e ∧ x.2 = 1 - dist e q ∧ thr < x.2 := by
  intro x hx
  obtain ⟨hthr, c, hc, hfst, hsnd⟩ :=
    (semanticSearch_spec dist q thr cnt _).1 x hx
  rw [List.mem_filterMap] at hc
  obtain ⟨n, -, hn⟩ := hc
  rw [Option.map_eq_some'] at hn
  obtain ⟨e, hne, he⟩ := hn
  refine ⟨e, ?_, ?_, hthr⟩
  · rw [← hfst, ← he]
    exact hne
  · rw [hsnd, ← he]

/-- Same soundness for chunks. -/
lemma search_chunks_semantic_sound (dist : List ℚ → List ℚ → ℚ)
    (chunks : List ChunkRow) (q : List ℚ) (thr : ℚ) (cnt : Nat) :
    ∀ x ∈ search_chunks_semantic dist chunks q thr cnt,
      ∃ e, x.1.embedding = some e ∧ x.2 = 1 - dist e q ∧ thr < x.2 := by
  intro x hx
  obtain ⟨hthr, c, hc, hfst, hsnd⟩ :=
    (semanticSearch_spec dist q thr cnt _).1 x hx
  rw [List.mem_filterMap] at hc
  obtain ⟨n, -, hn⟩ := hc
  rw [Option.map_eq_some'] at hn
  obtain ⟨e, hne, he⟩ := hn
  refine ⟨e, ?_, ?_, hthr⟩
  · rw [← hfst, ← he]
    exact hne
  · rw [hsnd, ← he]

/-- A distance oracle realising the spec's vector-search scenario: each
stored embedding is a one-element marker whose coordinate is its cosine
distance to the scenario query, giving similarities 0.9, 0.75, 0.6. -/
def scDist : List ℚ → List ℚ → ℚ := fun a _ => a.headD 0

def scVecNodes : List NodeRow :=
  [⟨1, "D1", none, [], some [1/10]⟩, ⟨2, "D2", none, [], some [1/4]⟩,
   ⟨3, "D3", none, [], some [2/5]⟩]

def scVecChunks : List ChunkRow :=
  [⟨1, 1, 0, "c1", some [1/10], []⟩, ⟨2, 1, 1, "c2", some [1/4], []⟩,
   ⟨3, 1, 2, "c3", some [2/5], []⟩]

/-- C4 (amended): for every query embedding, scope (nodes or chunks),
threshold and limit, the semantic search returns only rows whose stored
embedding is non-null, reported with similarity `1 - dist` strictly
greater than the threshold, in weakly descending similarity order
(candidates of equal similarity may be adjacent), truncated to the
limit; with threshold 0.7 over candidates of similarity 0.9, 0.75 and
0.6 it returns exactly the first two, ordered 0.9 then 0.75. -/
theorem C4_similarity_search :
    (∀ (dist : List ℚ → List ℚ → ℚ) (nodes : List NodeRow)
        (chunks : List ChunkRow) (q : List ℚ) (thr : ℚ) (cnt : Nat),
      (∀ x ∈ search_nodes_semantic dist nodes q thr cnt,
        ∃ e, x.1.embedding = some e ∧ x.2 = 1 - dist e q ∧ thr < x.2) ∧
      ((search_nodes_semantic dist nodes q thr cnt).map Prod.snd).Pairwise
        (fun a b => b ≤ a) ∧
      (search_nodes_semantic dist nodes q thr cnt).length ≤ cnt ∧
      (∀ x ∈ search_chunks_semantic dist chunks q thr cnt,
        ∃ e, x.1.embedding = some e ∧ x.2 = 1 - dist e q ∧ thr < x.2) ∧
      ((search_chunks_semantic dist chunks q thr cnt).map
        Prod.snd).Pairwise (fun a b => b ≤ a) ∧
      (search_chunks_semantic dist chunks q thr cnt).length ≤ cnt) ∧
    (search_nodes_semantic scDist scVecNodes [0] (7/10) 10).map
        (fun x => (x.1.id, x.2)) = [(1, 9/10), (2, 3/4)] ∧
    (search_chunks_semantic scDist scVecChunks [0] (7/10) 10).map
        (fun x => (x.1.id, x.2)) = [(1, 9/10), (2, 3/4)] := by
  refine ⟨?_, ?_, ?_⟩
  · intro dist nodes chunks q thr cnt
    exact ⟨search_nodes_semantic_sound dist nodes q thr cnt,
      (semanticSearch_spec dist q thr cnt _).2.1,
      (semanticSearch_spec dist q thr cnt _).2.2,
      search_chunks_semantic_sound dist chunks q thr cnt,
      (semanticSearch_spec dist q thr cnt _).2.1,
      (semanticSearch_spec dist q thr cnt _).2.2⟩
  · norm_num [search_nodes_semantic, semanticSearch, scDist, scVecNodes,
      simLE, List.insertionSort, List.orderedInsert, List.filterMap_cons,
      List.filter_cons, decide_eq_true_eq, Option.map_some']
  · norm_num [search_chunks_semantic, semanticSearch, scDist, scVecChunks,
      simLE, List.insertionSort, List.orderedInsert, List.filterMap_cons,
      List.filter_cons, decide_eq_true_eq, Option.map_some']

/-- Witness for `C4_similarity_search`: the top scenario result D1 has
a non-null embedding, similarity 0.9 = 1 − 0.1, and 0.9 > 0.7. -/
theorem C4_similarity_search_witness :
    ∃ e, (⟨1, "D1", none, [], some [1/10]⟩ : NodeRow).embedding = some e ∧
      (9/10 : ℚ) = 1 - scDist e [0] ∧ (7/10 : ℚ) < (9/10 : ℚ) :=
  (C4_similarity_search.1 scDist scVecNodes [] [0] (7/10) 10).1
    (⟨1, "D1", none, [], some [1/10]⟩, 9/10)
    (by norm_num [search_nodes_semantic, semanticSearch, scDist,
      scVecNodes, simLE, List.insertionSort, List.orderedInsert, List.filterMap_cons,
      List.filter_cons, decide_eq_true_eq, Option.map_some'])

/-- Two rows with identical embeddings, hence identical cosine distance
0 to a query equal to that embedding. -/
def tieDist : List ℚ → List ℚ → ℚ := fun a b => if a = b then 0 else 1

def tieNodes : List NodeRow :=
  [⟨1, "T1", none, [], some [1, 2]⟩, ⟨2, "T2", none, [], some [1, 2]⟩]

/-- C4 counterexample to the claim as stated: two candidates with the
same stored embedding have the same similarity to the query (cosine
distance of a vector to itself is 0, so both score 1), so the result
similarities are [1, 1] — descending, but not STRICTLY descending. -/
theorem C4_strict_counterexample :
    (search_nodes_semantic tieDist tieNodes [1, 2] (7/10) 10).map
        Prod.snd = [1, 1] ∧
    ¬ ((search_nodes_semantic tieDist tieNodes [1, 2] (7/10) 10).map
        Prod.snd).Pairwise (fun a b => b < a) := by
  have h : (search_nodes_semantic tieDist tieNodes [1, 2] (7/10) 10).map
      Prod.snd = [1, 1] := by
    norm_num [search_nodes_semantic, semanticSearch, tieDist, tieNodes,
      simLE, List.insertionSort, List.orderedInsert, List.filterMap_cons,
      List.filter_cons, decide_eq_true_eq, Option.map_some']
  refine ⟨h, ?_⟩
  rw [h]
  intro hp
  rw [List.pairwise_cons] at hp
  exact lt_irrefl _ (hp.1 1 (List.mem_singleton.2 rfl))

/-!
## The graph store and the chat route (`app/api/chat/route.ts`)

The store state gathers the `kg_nodes`, `kg_edges` and `document_chunks`
tables.  Edge creation is an `INSERT INTO kg_edges`, whose outcome is
dictated by the schema's `REFERENCES kg_nodes(id)` constraints on both
endpoints and by `UNIQUE(source_id, target_id, relationship)`: a
violating insert raises an error and leaves the table unchanged.  Fresh
row UUIDs are oracle arguments.
-/

structure Store where
  nodes : List NodeRow
  edges : List EdgeRow
  chunks : List ChunkRow
deriving Repr, DecidableEq

inductive EdgeErr
  | referenceError
  | duplicateError
deriving Repr, DecidableEq

def hasNode (s : Store) (i : NodeId) : Bool :=
  s.nodes.any (fun n => n.id == i)

def edgeTriple (e : EdgeRow) : NodeId × NodeId × String :=
  (e.source_id, e.target_id, e.relationship)

/-- `INSERT INTO kg_nodes (label, type, properties)`: no uniqueness
constraint, always appends a fresh row with a null embedding. -/
def createNode (s : Store) (label : String) (typ : Option String)
    (properties : List (String × String)) (newId : NodeId) :
    Store × NodeRow :=
  let n : NodeRow := ⟨newId, label, typ, properties, none⟩
  ({ s with nodes := s.nodes ++ [n] }, n)

/-- `INSERT INTO kg_edges` under the schema constraints: fails with a
foreign-key error when an endpoint does not exist, with a unique-key
error when the (source_id, target_id, relationship) triple is already
present; otherwise appends the row (`weight` is the column default 1.0
when the caller does not pass one). -/
def createEdge (s : Store) (source_id target_id : NodeId)
    (relationship : String) (properties : List (String × String))
    (weight : ℚ) (newId : NodeId) : Store × Except EdgeErr EdgeRow :=
  if hasNode s source_id && hasNode s target_id then
    if s.edges.any (fun e => e.source_id == source_id &&
        e.target_id == target_id && e.relationship == relationship) then
      (s, .error .duplicateError)
    else
      let e : EdgeRow :=
        ⟨newId, source_id, target_id, relationship, properties, weight⟩
      ({ s with edges := s.edges ++ [e] }, .ok e)
  else (s, .error .referenceError)

/-- The uniqueness invariant of `kg_edges`: no two rows share the
(source_id, target_id, relationship) triple. -/
def tripleNodup (s : Store) : Prop :=
  (s.edges.map edgeTriple).Nodup

/-- C5: the (source, target, relationship) triple is unique in the edge
store and every operation preserves this: edge creation on an existing
triple fails with the duplicate error leaving the store unchanged, edge
creation with a missing endpoint fails with the reference error leaving
the store unchanged, and node creation never touches the edge table. -/
theorem C5_edge_triple_unique :
    ∀ (s : Store) (src tgt : NodeId) (rel : String)
        (props : List (String × String)) (w : ℚ) (newId : NodeId),
      (tripleNodup s →
        tripleNodup (createEdge s src tgt rel props w newId).1) ∧
      ((hasNode s src && hasNode s tgt) = false →
        createEdge s src tgt rel props w newId =
          (s, .error .referenceError)) ∧
      ((∃ e ∈ s.edges, e.source_id = src ∧ e.target_id = tgt ∧
          e.relationship = rel) →
        (hasNode s src && hasNode s tgt) = true →
        createEdge s src tgt rel props w newId =
          (s, .error .duplicateError)) ∧
      (∀ (label : String) (typ : Option String)
          (nprops : List (String × String)),
        tripleNodup s → tripleNodup (createNode s label typ nprops newId).1) := by
  intro s src tgt rel props w newId
  have hdup : (s.edges.any (fun e => e.source_id == src &&
      e.target_id == tgt && e.relationship == rel)) = true ↔
      ∃ e ∈ s.edges, e.source_id = src ∧ e.target_id = tgt ∧
        e.relationship = rel := by
    rw [List.any_eq_true]
    simp only [Bool.and_eq_true, beq_iff_eq, and_assoc]
  refine ⟨?_, ?_, ?_, ?_⟩
  · intro hs
    rw [createEdge]
    by_cases h1 : (hasNode s src && hasNode s tgt) = true
    · rw [if_pos h1]
      by_cases h2 : (s.edges.any (fun e => e.source_id == src &&
          e.target_id == tgt && e.relationship == rel)) = true
      · rw [if_pos h2]
        exact hs
      · rw [if_neg h2]
        rw [tripleNodup] at hs ⊢
        simp only [List.map_append, List.map_cons, List.map_nil]
        rw [List.nodup_append]
        refine ⟨hs, List.nodup_singleton _, ?_⟩
        intro x hx
        rw [List.mem_map] at hx
        obtain ⟨e, he, rfl⟩ := hx
        rw [List.mem_singleton]
        intro hx
        rw [edgeTriple, edgeTriple] at hx
        simp only [Prod.mk.injEq] at hx
        exact h2 (hdup.2 ⟨e, he, hx.1, hx.2.1, hx.2.2⟩)
    · rw [if_neg h1]
      exact hs
  · intro h1
    rw [createEdge, if_neg (by rw [h1]; exact Bool.false_ne_true)]
  · intro hex h1
    rw [createEdge, if_pos h1, if_pos (hdup.2 hex)]
  · intro label typ nprops hs
    exact hs

/-- A concrete store over the scenario graph. -/
def stW : Store := ⟨scNodes, scEdges, []⟩

/-- Witness for `C5_edge_triple_unique`: on the scenario store,
recreating the existing edge A→B "x" fails with the duplicate error,
and an edge from a nonexistent node 9 fails with the reference error,
both leaving the store unchanged. -/
theorem C5_edge_triple_unique_witness :
    createEdge stW 1 2 "x" [] 1 99 = (stW, .error .duplicateError) ∧
    createEdge stW 9 2 "y" [] 1 99 = (stW, .error .referenceError) :=
  ⟨(C5_edge_triple_unique stW 1 2 "x" [] 1 99).2.2.1 (by decide) (by decide),
   (C5_edge_triple_unique stW 9 2 "y" [] 1 99).2.1 (by decide)⟩

/-- `generateEmbedding` (route.ts 350-367): truncate the text to 8000
characters, call the OpenAI embeddings API (the oracle `api`; `none`
models a thrown error), and on failure log to the server console and
substitute the mock vector `mock` (the oracle for
`Array(1536).fill(0).map(() => Math.random())`).  The first component
is the returned value — a bare vector; the second component records the
console messages, which never reach the HTTP response. -/
def generateEmbedding (api : String → Option (List ℚ)) (mock : List ℚ)
    (text : String) : List ℚ × List String :=
  let truncatedText := text.take 8000
  match api truncatedText with
  | some e => (e, [])
  | none => (mock, ["Embedding generation failed:",
      "Using mock embeddings as fallback"])

/-!
### The mode-gated tool table and the tool execute bodies

`route.ts` builds the `tools` record by conditional object spreads:
`searchDocuments` for vector and hybrid, the four graph tools for graph
and hybrid, `searchNodesSemanticaly` for hybrid only.  Only
`searchDocuments` is wrapped in `createSafeExecute`; the other execute
bodies rethrow store errors (`if (error) throw error`).
-/

inductive Mode
  | vector
  | graph
  | hybrid
deriving Repr, DecidableEq

inductive ToolName
  | searchDocuments
  | traverseGraph
  | createNode
  | createEdge
  | updateGraph
  | searchNodesSemanticaly
deriving Repr, DecidableEq

/-- The tool record built for each mode, in spread order
(route.ts 72-274). -/
def toolsFor : Mode → List ToolName
  | .vector => [.searchDocuments]
  | .graph => [.traverseGraph, .createNode, .createEdge, .updateGraph]
  | .hybrid => [.searchDocuments, .traverseGraph, .createNode,
      .createEdge, .updateGraph, .searchNodesSemanticaly]

/-- A tool invocation with its (zod-parsed) arguments. -/
inductive ToolCall
  | searchDocuments (query : String) (threshold : ℚ) (limit : Nat)
  | traverseGraph (nodeLabel : String) (maxDepth : Nat)
  | createNode (label : String) (typ : Option String)
      (properties : List (String × String))
  | createEdge (sourceLabel targetLabel relationship : String)
  | updateGraph (refreshOp : Bool)
  | searchNodesSemanticaly (query : String) (threshold : ℚ) (limit : Nat)
deriving Repr, DecidableEq

def toolOf : ToolCall → ToolName
  | .searchDocuments .. => .searchDocuments
  | .traverseGraph .. => .traverseGraph
  | .createNode .. => .createNode
  | .createEdge .. => .createEdge
  | .updateGraph .. => .updateGraph
  | .searchNodesSemanticaly .. => .searchNodesSemanticaly

/-- A value returned by an execute body (the presentational reshaping
of search results — `document_title`, `excerpt` — is elided). -/
inductive ToolValue
  | chunkResults (rs : List (ChunkRow × ℚ))
  | nodeResults (rs : List (NodeRow × ℚ))
  | traverseResult (startNode : NodeRow) (connectedNodes : List PathRow)
  | createdNode (n : NodeRow)
  | createdEdge (e : EdgeRow)
  | graphData
  | errObj (message : String)
  | safeErrObj (toolName message : String)
deriving Repr, DecidableEq

/-- The outcome of one tool invocation: a returned value, or an
exception escaping the execute body. -/
inductive ToolOutcome
  | ok (v : ToolValue)
  | thrown (message : String)
deriving Repr, DecidableEq

/-- Per-invocation external effects: whether the supabase RPC / insert
call of this invocation fails (`dbFail`, with message `failMsg`), the
embeddings-API outcome and mock vector used by `generateEmbedding`, and
the fresh row id for inserts. -/
structure Oracle where
  dbFail : Bool
  failMsg : String
  embedApi : Option (List ℚ)
  mockEmbedding : List ℚ
  newId : NodeId
deriving Repr, DecidableEq

/-- `.from('kg_nodes').select().eq('label', l).limit(1)`: the first row
carrying the label, in creation order. -/
def findByLabel (s : Store) (label : String) : Option NodeRow :=
  (s.nodes.filter (fun n => n.label == label)).head?

/-- `createSafeExecute(fn, toolName)` (route.ts 32-48): wraps an
execute body so that a thrown error is caught and converted into the
structured result `{ error: true, message: "Failed to execute
<toolName>: <message>" }`. -/
def createSafeExecute (toolName : String)
    (f : Store → Store × ToolOutcome) : Store → Store × ToolOutcome :=
  fun s =>
    match f s with
    | (s', .thrown msg) =>
      (s', .ok (.safeErrObj toolName
        ("Failed to execute " ++ toolName ++ ": " ++ msg)))
    | r => r

/-- The `searchDocuments` execute body before wrapping
(route.ts 78-100): generate the query embedding, then call the
`search_chunks_semantic` RPC with the JS falsy-coalescing defaults
`threshold || 0.5` and `limit || 10`. -/
def searchDocumentsRaw (dist : List ℚ → List ℚ → ℚ) (o : Oracle)
    (query : String) (threshold : ℚ) (limit : Nat) (s : Store) :
    Store × ToolOutcome :=
  let emb := (generateEmbedding (fun _ => o.embedApi) o.mockEmbedding
    query).1
  if o.dbFail then (s, .thrown o.failMsg)
  else (s, .ok (.chunkResults (search_chunks_semantic dist s.chunks emb
    (if threshold = 0 then 1/2 else threshold)
    (if limit = 0 then 10 else limit))))

/-- The Postgres error message raised by a constraint-violating edge
insert (rethrown unwrapped by the route's `createEdge` execute). -/
def edgeErrMsg : EdgeErr → String
  | .referenceError => "violates foreign key constraint on kg_edges"
  | .duplicateError => "duplicate key value violates unique constraint on kg_edges"

/-- One tool invocation (route.ts 72-274).  Only `searchDocuments` is
wrapped in `createSafeExecute`; the other execute bodies return
structured error objects for their handled cases (missing start node,
missing endpoints) but rethrow store errors. -/
def runTool (dist : List ℚ → List ℚ → ℚ) (o : Oracle) (c : ToolCall)
    (s : Store) : Store × ToolOutcome :=
  match c with
  | .searchDocuments query threshold limit =>
    createSafeExecute "searchDocuments"
      (searchDocumentsRaw dist o query threshold limit) s
  | .traverseGraph nodeLabel maxDepth =>
    match findByLabel s nodeLabel with
    | none => (s, .ok (.errObj "Node not found"))
    | some n =>
      if o.dbFail then (s, .thrown o.failMsg)
      else (s, .ok (.traverseResult n
        (get_connected_nodes s.nodes s.edges n.id maxDepth)))
  | .createNode label typ properties =>
    if o.dbFail then (s, .thrown o.failMsg)
    else
      let sn := createNode s label typ properties o.newId
      (sn.1, .ok (.createdNode sn.2))
  | .createEdge sourceLabel targetLabel relationship =>
    match findByLabel s sourceLabel, findByLabel s targetLabel with
    | some a, some b =>
      if o.dbFail then (s, .thrown o.failMsg)
      else
        match createEdge s a.id b.id relationship [] 1 o.newId with
        | (s', .ok e) => (s', .ok (.createdEdge e))
        | (s', .error err) => (s', .thrown (edgeErrMsg err))
    | _, _ => (s, .ok (.errObj "One or both nodes not found"))
  | .updateGraph refreshOp =>
    if refreshOp && o.dbFail then (s, .thrown o.failMsg)
    else (s, .ok .graphData)
  | .searchNodesSemanticaly query threshold limit =>
    let emb := (generateEmbedding (fun _ => o.embedApi) o.mockEmbedding
      query).1
    if o.dbFail then (s, .thrown o.failMsg)
    else (s, .ok (.nodeResults
      (search_nodes_semantic dist s.nodes emb threshold limit)))

/-- Execution of a request's tool invocations in order.  A returned
value (including a structured error object) lets the run continue; an
exception escaping an execute body is caught nowhere in the route, so
it ends the request's tool sequence. -/
def runSeq (dist : List ℚ → List ℚ → ℚ) :
    List (Oracle × ToolCall) → Store →
      Store × List (ToolName × ToolOutcome)
  | [], s => (s, [])
  | (o, c) :: rest, s =>
    match runTool dist o c s with
    | (s', .thrown m) => (s', [(toolOf c, .thrown m)])
    | (s', out) =>
      let rec' := runSeq dist rest s'
      (rec'.1, (toolOf c, out) :: rec'.2)

inductive ValidationOutcome
  | invalidRequest (message : String)
  | proceed (messages : List String) (mode : Mode)
deriving Repr, DecidableEq

/-- Input validation of `POST` (route.ts 50-67): `messages` must be
present and an array (`none` models absent or non-array — note that an
EMPTY array passes, since `![]` is false in JS), and `mode` must be one
of vector, graph, hybrid. -/
def validateRequest (messages : Option (List String))
    (mode : Option String) : ValidationOutcome :=
  match messages with
  | none => .invalidRequest "Invalid messages format"
  | some ms =>
    match mode with
    | none => .invalidRequest "Invalid mode. Must be vector, graph, or hybrid"
    | some m =>
      if m = "vector" then .proceed ms .vector
      else if m = "graph" then .proceed ms .graph
      else if m = "hybrid" then .proceed ms .hybrid
      else .invalidRequest "Invalid mode. Must be vector, graph, or hybrid"

inductive ChatResponse
  | badRequest (message : String)
  | completed (provenance : List (ToolName × ToolOutcome))
deriving Repr, DecidableEq

/-- The POST handler: validate, then run the driving agent's tool
invocations (`agent` models the streamText tool-call loop).  The SDK
exposes only the tools of the mode's record, so invocations of
non-offered tools cannot happen and are filtered out, and
`maxSteps: 5` bounds the number of steps.  Validation failure returns
400 before the store is touched. -/
def postHandler (dist : List ℚ → List ℚ → ℚ)
    (messages : Option (List String)) (mode : Option String)
    (agent : List (Oracle × ToolCall)) (s : Store) :
    Store × ChatResponse :=
  match validateRequest messages mode with
  | .invalidRequest m => (s, .badRequest m)
  | .proceed _ md =>
    let offered := (agent.filter (fun p => toolOf p.2 ∈ toolsFor md)).take 5
    let r := runSeq dist offered s
    (r.1, .completed r.2)

/-- The wrapped `searchDocuments` tool never lets an exception escape:
it returns a value on the unchanged store, and when the store call
fails the value is the structured error tagged with the operation
name. -/
lemma searchDocuments_caught (dist : List ℚ → List ℚ → ℚ) (o : Oracle)
    (query : String) (threshold : ℚ) (limit : Nat) (s : Store) :
    ∃ v, runTool dist o (.searchDocuments query threshold limit) s =
      (s, .ok v) ∧
      (o.dbFail = true → v = .safeErrObj "searchDocuments"
        ("Failed to execute searchDocuments: " ++ o.failMsg)) := by
  by_cases hdb : o.dbFail = true
  · refine ⟨.safeErrObj "searchDocuments"
      ("Failed to execute searchDocuments: " ++ o.failMsg), ?_, fun _ => rfl⟩
    simp [runTool, createSafeExecute, searchDocumentsRaw, hdb]
  · refine ⟨.chunkResults (search_chunks_semantic dist s.chunks
      ((generateEmbedding (fun _ => o.embedApi) o.mockEmbedding query).1)
      (if threshold = 0 then 1/2 else threshold)
      (if limit = 0 then 10 else limit)), ?_, ?_⟩
    · simp [runTool, createSafeExecute, searchDocumentsRaw, hdb]
    · intro h
      exact absurd h hdb

lemma runSeq_cons_ok {dist : List ℚ → List ℚ → ℚ} {o : Oracle}
    {c : ToolCall} {s s' : Store} {v : ToolValue}
    {rest : List (Oracle × ToolCall)}
    (h : runTool dist o c s = (s', .ok v)) :
    runSeq dist ((o, c) :: rest) s =
      ((runSeq dist rest s').1,
        (toolOf c, .ok v) :: (runSeq dist rest s').2) := by
  simp only [runSeq]
  rw [h]

/-- Every invocation in a list of wrapped `searchDocuments` calls
executes: the store is left unchanged, no step is lost to an escaped
exception, and every provenance entry is tagged `searchDocuments`. -/
lemma runSeq_searchDocs (dist : List ℚ → List ℚ → ℚ) :
    ∀ (l : List (Oracle × ToolCall)) (s : Store),
      (∀ p ∈ l, toolOf p.2 = ToolName.searchDocuments) →
      (runSeq dist l s).1 = s ∧
      (runSeq dist l s).2.length = l.length ∧
      ∀ pr ∈ (runSeq dist l s).2, pr.1 = ToolName.searchDocuments := by
  intro l
  induction l with
  | nil =>
    intro s _
    refine ⟨rfl, rfl, ?_⟩
    intro pr hpr
    simp [runSeq] at hpr
  | cons p rest ih =>
    intro s h
    obtain ⟨o, c⟩ := p
    have hc : toolOf c = ToolName.searchDocuments :=
      h (o, c) (List.mem_cons_self _ _)
    cases c with
    | searchDocuments q t lim =>
      obtain ⟨v, hv, -⟩ := searchDocuments_caught dist o q t lim s
      rw [runSeq_cons_ok hv]
      obtain ⟨ih1, ih2, ih3⟩ := ih s
        (fun p hp => h p (List.mem_cons_of_mem _ hp))
      refine ⟨ih1, by simpa using ih2, ?_⟩
      intro pr hpr
      rcases List.mem_cons.mp hpr with rfl | hpr
      · rfl
      · exact ih3 pr hpr
    | traverseGraph a b => exact absurd hc (by simp [toolOf])
    | createNode a b cc => exact absurd hc (by simp [toolOf])
    | createEdge a b cc => exact absurd hc (by simp [toolOf])
    | updateGraph a => exact absurd hc (by simp [toolOf])
    | searchNodesSemanticaly a b cc => exact absurd hc (by simp [toolOf])

/-- C6: in vector mode the only tool offered is document-chunk
similarity search; no node- or edge-creation tool exists in the record,
so any vector-mode request — even one asking to create a node — leaves
the graph store unchanged and its provenance has no `createNode`
entry. -/
theorem C6_vector_mode_frame :
    toolsFor Mode.vector = [ToolName.searchDocuments] ∧
    (∀ t ∈ toolsFor Mode.vector, t ≠ ToolName.createNode ∧
      t ≠ ToolName.createEdge) ∧
    ∀ (dist : List ℚ → List ℚ → ℚ) (ms : List String)
        (agent : List (Oracle × ToolCall)) (s : Store),
      (postHandler dist (some ms) (some "vector") agent s).1 = s ∧
      ∃ prov, (postHandler dist (some ms) (some "vector") agent s).2 =
          .completed prov ∧
        ∀ pr ∈ prov, pr.1 = ToolName.searchDocuments ∧
          pr.1 ≠ ToolName.createNode := by
  refine ⟨rfl, by decide, ?_⟩
  intro dist ms agent s
  have hval : validateRequest (some ms) (some "vector") =
      .proceed ms .vector := by
    simp [validateRequest]
  set l := (agent.filter
    (fun p => toolOf p.2 ∈ toolsFor Mode.vector)).take 5 with hldef
  have hpost : postHandler dist (some ms) (some "vector") agent s =
      ((runSeq dist l s).1, .completed (runSeq dist l s).2) := by
    simp only [postHandler, hval, hldef]
  have hall : ∀ p ∈ l, toolOf p.2 = ToolName.searchDocuments := by
    intro p hp
    have hp' := List.mem_of_mem_take (hldef ▸ hp)
    have := (List.mem_filter.mp hp').2
    simp only [toolsFor, List.mem_singleton, decide_eq_true_eq] at this
    exact this
  obtain ⟨h1, -, h3⟩ := runSeq_searchDocs dist l s hall
  refine ⟨by rw [hpost]; exact h1, (runSeq dist l s).2, by rw [hpost], ?_⟩
  intro pr hpr
  refine ⟨h3 pr hpr, ?_⟩
  rw [h3 pr hpr]
  decide

/-- Witness for `C6_vector_mode_frame`: a vector-mode request whose
driving agent attempts a `createNode` invocation mutates nothing and
produces no `createNode` provenance entry (the capability is not
offered, so the attempt is filtered out). -/
theorem C6_vector_mode_frame_witness :
    (postHandler scDist (some ["create a node"]) (some "vector")
        [(⟨false, "", none, [], 99⟩, ToolCall.createNode "X" none [])]
        stW).1 = stW ∧
    ∃ prov, (postHandler scDist (some ["create a node"]) (some "vector")
        [(⟨false, "", none, [], 99⟩, ToolCall.createNode "X" none [])]
        stW).2 = .completed prov ∧
      ∀ pr ∈ prov, pr.1 = ToolName.searchDocuments ∧
        pr.1 ≠ ToolName.createNode :=
  C6_vector_mode_frame.2.2 scDist ["create a node"]
    [(⟨false, "", none, [], 99⟩, ToolCall.createNode "X" none [])] stW

/-- C7 (amended): only the `searchDocuments` operation is wrapped by
`createSafeExecute`, so only its failures are caught and converted into
a structured error result tagged with the operation name, without
aborting the remaining steps; `createEdge` separately returns a
structured error object when an endpoint label is not found.  The other
tools' execute bodies rethrow store errors unwrapped (see the
counterexample). -/
theorem C7_per_step_isolation :
    (∀ (dist : List ℚ → List ℚ → ℚ) (o : Oracle) (query : String)
        (threshold : ℚ) (limit : Nat) (s : Store),
      ∃ v, runTool dist o (.searchDocuments query threshold limit) s =
        (s, .ok v) ∧
        (o.dbFail = true → v = .safeErrObj "searchDocuments"
          ("Failed to execute searchDocuments: " ++ o.failMsg))) ∧
    (∀ (dist : List ℚ → List ℚ → ℚ) (o : Oracle) (sl tl rel : String)
        (s : Store), findByLabel s sl = none →
      runTool dist o (.createEdge sl tl rel) s =
        (s, .ok (.errObj "One or both nodes not found"))) ∧
    (∀ (dist : List ℚ → List ℚ → ℚ) (l : List (Oracle × ToolCall))
        (s : Store),
      (∀ p ∈ l, toolOf p.2 = ToolName.searchDocuments) →
      (runSeq dist l s).2.length = l.length) := by
  refine ⟨searchDocuments_caught, ?_, ?_⟩
  · intro dist o sl tl rel s hnone
    simp only [runTool, hnone]
  · intro dist l s h
    exact (runSeq_searchDocs dist l s h).2.1

/-- An oracle whose store call fails. -/
def oFail : Oracle := ⟨true, "db down", none, [], 99⟩

/-- Witness for `C7_per_step_isolation`: a failing wrapped
`searchDocuments` call is caught, a `createEdge` call naming a missing
endpoint returns the structured not-found object, and a failing wrapped
step still accounts for its step. -/
theorem C7_per_step_isolation_witness :
    (∃ v, runTool scDist oFail (.searchDocuments "q" 0 0) stW =
      (stW, .ok v) ∧
      (oFail.dbFail = true → v = .safeErrObj "searchDocuments"
        ("Failed to execute searchDocuments: " ++ oFail.failMsg))) ∧
    runTool scDist oFail (.createEdge "Nope" "B" "r") stW =
      (stW, .ok (.errObj "One or both nodes not found")) ∧
    (runSeq scDist [(oFail, .searchDocuments "q" 0 0)] stW).2.length = 1 :=
  ⟨C7_per_step_isolation.1 scDist oFail "q" 0 0 stW,
   C7_per_step_isolation.2.1 scDist oFail "Nope" "B" "r" stW (by decide),
   C7_per_step_isolation.2.2 scDist
     [(oFail, .searchDocuments "q" 0 0)] stW (by decide)⟩

/-- C7 counterexample to the claim as stated: the `createNode`
invocation is NOT wrapped — when its insert fails the error escapes the
execute body as an exception instead of being converted into a
structured error result tagged with the operation name. -/
theorem C7_unwrapped_counterexample :
    (runTool scDist oFail (.createNode "X" (some "concept") []) stW).2 =
      .thrown "db down" ∧
    (runTool scDist oFail (.createNode "X" (some "concept") []) stW).2 ≠
      .ok (.safeErrObj "createNode"
        "Failed to execute createNode: db down") := by
  exact ⟨rfl, by decide⟩

/-- C8 (amended): the request fails with the invalid-request response,
before any store access, exactly when the messages field is absent or
not an array, or the mode is missing or outside vector/graph/hybrid.
An EMPTY message array passes validation (see the counterexample), so
non-emptiness of the message sequence is NOT enforced. -/
theorem C8_validation :
    (∀ (messages : Option (List String)) (mode : Option String),
      (∃ m, validateRequest messages mode = .invalidRequest m) ↔
        (messages = none ∨
          ¬∃ s, mode = some s ∧
            (s = "vector" ∨ s = "graph" ∨ s = "hybrid"))) ∧
    (∀ (dist : List ℚ → List ℚ → ℚ) (messages : Option (List String))
        (mode : Option String) (agent : List (Oracle × ToolCall))
        (s : Store) (m : String),
      validateRequest messages mode = .invalidRequest m →
      postHandler dist messages mode agent s = (s, .badRequest m)) := by
  constructor
  · intro messages mode
    cases messages with
    | none => simp [validateRequest]
    | some ms =>
      cases mode with
      | none => simp [validateRequest]
      | some m =>
        by_cases h1 : m = "vector"
        · simp [validateRequest, h1]
        · by_cases h2 : m = "graph"
          · simp [validateRequest, h1, h2]
          · by_cases h3 : m = "hybrid"
            · simp [validateRequest, h1, h2, h3]
            · simp [validateRequest, h1, h2, h3]
  · intro dist messages mode agent s m h
    simp only [postHandler, h]

/-- Witness for `C8_validation`: an unknown mode is rejected with the
400 response and the store untouched. -/
theorem C8_validation_witness :
    postHandler scDist (some ["hi"]) (some "bogus") [] stW =
      (stW, .badRequest "Invalid mode. Must be vector, graph, or hybrid") :=
  C8_validation.2 scDist (some ["hi"]) (some "bogus") [] stW
    "Invalid mode. Must be vector, graph, or hybrid" rfl

/-- C8 counterexample to the claim as stated: a request with an EMPTY
message sequence and a valid mode passes validation and proceeds to
execution — `!messages` is false for `[]` in JS, so non-emptiness is
never checked. -/
theorem C8_empty_messages_counterexample :
    validateRequest (some []) (some "vector") = .proceed [] Mode.vector ∧
    postHandler scDist (some []) (some "vector") [] stW =
      (stW, .completed []) :=
  ⟨rfl, rfl⟩

/-- C10 (amended): when the embeddings API call fails,
`generateEmbedding` substitutes the random mock vector and logs a
warning to the server console only; the returned value is a bare
vector carrying no degraded flag. -/
theorem C10_embedding_fallback :
    (∀ (api : String → Option (List ℚ)) (mock : List ℚ) (text : String),
      api (text.take 8000) = none →
      generateEmbedding api mock text = (mock,
        ["Embedding generation failed:",
         "Using mock embeddings as fallback"])) ∧
    (∀ (api : String → Option (List ℚ)) (mock e : List ℚ)
        (text : String),
      api (text.take 8000) = some e →
      generateEmbedding api mock text = (e, [])) := by
  constructor
  · intro api mock text h
    simp only [generateEmbedding, h]
  · intro api mock e text h
    simp only [generateEmbedding, h]

/-- Witness for `C10_embedding_fallback`: a failing API call yields the
mock vector plus the two console messages. -/
theorem C10_embedding_fallback_witness :
    generateEmbedding (fun _ => none) [1, 2] "query" = ([1, 2],
      ["Embedding generation failed:",
       "Using mock embeddings as fallback"]) :=
  C10_embedding_fallback.1 (fun _ => none) [1, 2] "query" rfl

/-- A store holding one embedded document chunk. -/
def stC : Store := ⟨[], [], [⟨1, 1, 0, "c", some [0], []⟩]⟩

/-- C10 counterexample to the claim as stated: the fallback is NOT
visible to the caller.  The value returned by `generateEmbedding` on
failure is identical to a possible genuine embedding, and a whole
`searchDocuments` invocation produces the identical response whether
the embedding came from the API or from the silent fallback — no
provenance entry flags the degradation. -/
theorem C10_silent_fallback_counterexample :
    (generateEmbedding (fun _ => none) [1, 2] "query").1 =
      (generateEmbedding (fun _ => some [1, 2]) [9] "query").1 ∧
    runTool scDist ⟨false, "", none, [1, 2], 99⟩
        (.searchDocuments "query" (1/2) 10) stC =
      runTool scDist ⟨false, "", some [1, 2], [9], 99⟩
        (.searchDocuments "query" (1/2) 10) stC :=
  ⟨rfl, rfl⟩

end KG
